import Mathlib

/-!
# Verification of the crossword CSP solver (`generate.py`)

A shallow embedding of `CrosswordCreator` from
`src/3-optimization/crossword/generate.py` together with proofs about the
node-consistency pass, the AC-3 propagation loop, and the backtracking
search.

Python strings are embedded as `List Char`, Python sets of words as
`List Word` (constructed without duplicates; set equality is membership
equality), the `self.domains` dictionary as a total function
`Variable → List Word`, and Python dictionaries used as assignments as
association lists.  Python's `set.remove` (which raises `KeyError` on a
missing element) is embedded as an `Option`-valued removal.  Loops whose
termination is not structural (`ac3`'s work queue, `backtrack`'s
recursion) are embedded with an explicit fuel parameter returning `none`
on fuel exhaustion; sufficiency lemmas show the chosen fuel is never
exhausted.
-/

namespace Crossgen

/-- Orientation of a slot.  Modelled from the spec: the `Variable` class of
the (absent) `crossword.py` module has `direction ∈ {ACROSS, DOWN}`. -/
inductive Direction where
  | across
  | down
deriving DecidableEq, Repr

/-- Modelled from the spec: a Slot ("variable" in CSP terms) of the absent
`crossword.py` module; identity is the four fields (start row, start
column, orientation, length), equality is structural. -/
structure Variable where
  i : Nat
  j : Nat
  direction : Direction
  length : Nat
deriving DecidableEq, Repr

/-- A Python string, embedded as its list of characters. -/
abbrev Word := List Char

/-- Python's `s[n]` character access, totalised with a default character;
boundedness of every access the code performs is proved separately. -/
def charAt (w : Word) (n : Nat) : Char :=
  w.getD n ' '

/-- Modelled from the spec: the `Crossword` class of the absent
`crossword.py` module.  It carries the set of slots, the word list and,
for every ordered pair of slots, either `none` (no shared cell) or the
pair of character offsets of the shared cell. -/
structure Crossword where
  vars : List Variable
  words : List Word
  overlaps : Variable → Variable → Option (Nat × Nat)

/-- Modelled from the spec: `Crossword.neighbors(var)` — all other slots
sharing a cell with `var`. -/
def Crossword.neighbors (cw : Crossword) (v : Variable) : List Variable :=
  cw.vars.filter (fun w => decide (w ≠ v) && (cw.overlaps v w).isSome)

/-- The `self.domains` dictionary, embedded as a total function. -/
abbrev Domains := Variable → List Word

/-- Source `CrosswordCreator.__init__`: every slot's domain starts as a copy of
the full word list. -/
def initialDomains (cw : Crossword) : Domains :=
  fun _ => cw.words

/-- Pointwise update of the domain map at one slot. -/
def updateD (d : Domains) (x : Variable) (l : List Word) : Domains :=
  fun v => if v = x then l else d v

/-- Python's `set.remove`: removes the element, raising (`none`) when the
element is absent. -/
def pyRemove (l : List Word) (w : Word) : Option (List Word) :=
  if w ∈ l then some (l.erase w) else none

/-- The iteration `for word in self.crossword.words` inside
`enforce_node_consistency`, for one slot of length `L`: remove every
wrong-length word from the running domain, failing (`KeyError`) when a
word to remove is absent. -/
def encWords (L : Nat) : List Word → List Word → Option (List Word)
  | [], dom => some dom
  | w :: ws, dom =>
    if w.length ≠ L then
      match pyRemove dom w with
      | none => none
      | some dom' => encWords L ws dom'
    else encWords L ws dom

/-- The inner loop of `enforce_node_consistency` for one slot. -/
def encVar (cw : Crossword) (v : Variable) (dom : List Word) : Option (List Word) :=
  encWords v.length cw.words dom

/-- The iteration `for variable in self.crossword.variables` of
`enforce_node_consistency`. -/
def encVars (cw : Crossword) : List Variable → Domains → Option Domains
  | [], acc => some acc
  | v :: vs, acc =>
    match encVar cw v (acc v) with
    | none => none
    | some l => encVars cw vs (updateD acc v l)

/-- Source `CrosswordCreator.enforce_node_consistency`.  `none` models the
`KeyError` raised by `set.remove` on an absent word. -/
def enforceNodeConsistency (cw : Crossword) (d : Domains) : Option Domains :=
  encVars cw cw.vars d

/-- The support test inside `revise`: word `v` for `x` is supported when
some word `w` in `y`'s domain is a different word agreeing with `v` at the
overlap offsets `(a, b)`. -/
def hasSupport (dy : List Word) (a b : Nat) (v : Word) : Bool :=
  dy.any (fun w => decide (v ≠ w) && decide (charAt v a = charAt w b))

/-- Source `CrosswordCreator.revise(x, y)`: with an overlap `(a, b)`, remove from
`x`'s domain every word with no support in `y`'s domain; report whether
anything was removed. -/
def revise (cw : Crossword) (d : Domains) (x y : Variable) : Domains × Bool :=
  match cw.overlaps x y with
  | none => (d, false)
  | some (a, b) =>
    let toRemove := (d x).filter (fun v => ! hasSupport (d y) a b v)
    if toRemove.isEmpty then (d, false)
    else (updateD d x ((d x).filter (fun v => hasSupport (d y) a b v)), true)

/-- An arc of the AC-3 work queue. -/
abbrev Arc := Variable × Variable

/-- The initial work queue built by `ac3` when no arcs are supplied: every
ordered pair of neighboring slots. -/
def fullQueue (cw : Crossword) : List Arc :=
  (cw.vars.map (fun v1 => (cw.neighbors v1).map (fun v2 => (v1, v2)))).flatten

/-- Total number of candidate words over all slots; the termination
measure of AC-3. -/
def domTotal (cw : Crossword) (d : Domains) : Nat :=
  (cw.vars.map (fun v => (d v).length)).sum

/-- Fuel sufficient for `ac3F` to drain the given queue (proved by
`ac3F_fuel_sufficient`). -/
def ac3Fuel (cw : Crossword) (q : List Arc) (d : Domains) : Nat :=
  q.length + domTotal cw d * (cw.vars.length + 1) + 1

/-- The `while queue` loop of `CrosswordCreator.ac3`, with explicit fuel:
pop the head arc, revise, return `false` as soon as a revision empties a
domain, otherwise enqueue `(z, x)` for every neighbor `z ≠ y` of a revised
`x`.  `none` is fuel exhaustion, never reached with `ac3Fuel` fuel. -/
def ac3F (cw : Crossword) : Nat → List Arc → Domains → Option (Domains × Bool)
  | 0, _, _ => none
  | _ + 1, [], d => some (d, true)
  | n + 1, (x, y) :: rest, d =>
    match revise cw d x y with
    | (d', true) =>
      if (d' x).length = 0 then some (d', false)
      else ac3F cw n
        (rest ++ ((cw.neighbors x).filter (fun z => decide (z ≠ y))).map (fun z => (z, x))) d'
    | (d', false) => ac3F cw n rest d'

/-- Source `CrosswordCreator.ac3(arcs)`: with `arcs = None` *or* an empty list
(the guard is Python falsiness, `if not arcs`), start from the full queue
of all neighboring ordered pairs; otherwise start from `arcs`. -/
def ac3 (cw : Crossword) (d : Domains) (arcs : Option (List Arc)) : Option (Domains × Bool) :=
  let queue :=
    match arcs with
    | none => fullQueue cw
    | some l => if l.isEmpty then fullQueue cw else l
  ac3F cw (ac3Fuel cw queue d) queue d

/-- An assignment dictionary, embedded as an association list (keys
distinct by construction in the search). -/
abbrev Assignment := List (Variable × Word)

/-- Dictionary lookup. -/
def lookupA (asg : Assignment) (v : Variable) : Option Word :=
  match asg with
  | [] => none
  | (k, w) :: rest => if k = v then some w else lookupA rest v

/-- Python's `var in assignment` (key membership). -/
def isAssigned (asg : Assignment) (v : Variable) : Bool :=
  (lookupA asg v).isSome

/-- Source `CrosswordCreator.assignment_complete`: every slot is a key and its
value is a word of the word list. -/
def assignmentComplete (cw : Crossword) (asg : Assignment) : Bool :=
  cw.vars.all (fun v =>
    match lookupA asg v with
    | none => false
    | some w => decide (w ∈ cw.words))

/-- Source `CrosswordCreator.consistent`: every assigned word has the slot's
length, distinct assigned slots hold distinct words, and overlapping
assigned slots agree at the overlap offsets. -/
def consistent (cw : Crossword) (asg : Assignment) : Bool :=
  asg.all (fun p =>
    decide (p.1.length = p.2.length) &&
    asg.all (fun q =>
      if p.1 = q.1 then true
      else
        decide (p.2 ≠ q.2) &&
        (match cw.overlaps p.1 q.1 with
         | none => true
         | some (a, b) => decide (charAt p.2 a = charAt q.2 b))))

/-- Stable insertion into a sorted list: the new element goes before the
first element it compares `le` to (so, before equal keys). -/
def insertLe {α : Type} (le : α → α → Bool) (x : α) : List α → List α
  | [] => [x]
  | h :: t => if le x h then x :: h :: t else h :: insertLe le x t

/-- Stable insertion sort; the embedding of Python's stable `list.sort`. -/
def sortLe {α : Type} (le : α → α → Bool) : List α → List α
  | [] => []
  | h :: t => insertLe le h (sortLe le t)

/-- The sort key comparison of `select_unassigned_variable`: Python's
lexicographic order on the key tuple `(len(domain), -degree)`. -/
def selectKeyLe : (Variable × Nat × Nat) → (Variable × Nat × Nat) → Bool :=
  fun p q => decide (p.2.1 < q.2.1) || (decide (p.2.1 = q.2.1) && decide (p.2.2 ≥ q.2.2))

/-- Source `CrosswordCreator.select_unassigned_variable`: among unassigned slots,
sort by (domain size, -degree) and take the first; `none` when every slot
is assigned. -/
def selectUnassignedVariable (cw : Crossword) (d : Domains) (asg : Assignment) :
    Option Variable :=
  match sortLe selectKeyLe
      ((cw.vars.filter (fun v => ! isAssigned asg v)).map
        (fun v => (v, (d v).length, (cw.neighbors v).length))) with
  | [] => none
  | h :: _ => some h.1

/-- The neighbor set computed at the top of `order_domain_values`:
`crossword.neighbors(var)` with every assigned slot removed. -/
def unassignedNeighbors (cw : Crossword) (asg : Assignment) (var : Variable) :
    List Variable :=
  (cw.neighbors var).filter (fun v => ! isAssigned asg v)

/-- The `total_ruled_out` count of `order_domain_values`: over the
unassigned neighbors, how many of their candidates disagree with `val` at
the overlap offsets. -/
def ruledOutCount (cw : Crossword) (d : Domains) (var : Variable)
    (ns : List Variable) (val : Word) : Nat :=
  (ns.map (fun v2 =>
    (d v2).countP (fun w2 =>
      match cw.overlaps var v2 with
      | none => false
      | some (a, b) => decide (charAt val a ≠ charAt w2 b)))).sum

/-- The sort key comparison of `order_domain_values`: ascending ruled-out
count. -/
def countLe : (Word × Nat) → (Word × Nat) → Bool :=
  fun p q => decide (p.2 ≤ q.2)

/-- Source `CrosswordCreator.order_domain_values`: the slot's candidates sorted
(stably) by ascending ruled-out count. -/
def orderDomainValues (cw : Crossword) (d : Domains) (var : Variable)
    (asg : Assignment) : List Word :=
  (sortLe countLe
    ((d var).map
      (fun val => (val, ruledOutCount cw d var (unassignedNeighbors cw asg var) val)))).map
    (fun p => p.1)

/-- Python truthiness of `backtrack`'s result (`if result:`): a non-`None`,
non-empty dictionary. -/
def pyTruthy (r : Option Assignment) : Bool :=
  match r with
  | none => false
  | some a => ! a.isEmpty

/-- The `for val in self.order_domain_values(...)` loop of `backtrack`:
try each candidate in order; on a consistent extension recurse (through
`bt`, the one-level-deeper search), propagate the first truthy success,
otherwise continue with the next candidate.  The domain map is threaded
through every call to make the source's absence of domain mutation a
provable statement. -/
def tryVals (cw : Crossword)
    (bt : Domains → Assignment → Option (Domains × Option Assignment))
    (var : Variable) (asg : Assignment) :
    List Word → Domains → Option (Domains × Option Assignment)
  | [], d0 => some (d0, none)
  | val :: rest, d0 =>
    if consistent cw ((var, val) :: asg) then
      match bt d0 ((var, val) :: asg) with
      | none => none
      | some (d1, r) =>
        if pyTruthy r then some (d1, r) else tryVals cw bt var asg rest d1
    else tryVals cw bt var asg rest d0

/-- Source `CrosswordCreator.backtrack`, with explicit recursion fuel.  The outer
`none` is fuel exhaustion, never reached with fuel exceeding the number of
unassigned slots; the inner `Option Assignment` is the source's
`assignment`-or-`None` result. -/
def backtrackF (cw : Crossword) : Nat → Domains → Assignment →
    Option (Domains × Option Assignment)
  | 0, _, _ => none
  | n + 1, d, asg =>
    if assignmentComplete cw asg then some (d, some asg)
    else
      match selectUnassignedVariable cw d asg with
      | none => some (d, none)
      | some var =>
        tryVals cw (fun d0 a => backtrackF cw n d0 a) var asg
          (orderDomainValues cw d var asg) d

/-- Source `CrosswordCreator.backtrack` at its sufficient fuel. -/
def backtrack (cw : Crossword) (d : Domains) (asg : Assignment) :
    Option (Domains × Option Assignment) :=
  backtrackF cw (cw.vars.length + 1) d asg

/-- Source `CrosswordCreator.solve`: node consistency, AC-3 (its boolean result
discarded, as in the source), then backtracking from the empty
assignment. -/
def solve (cw : Crossword) : Option Assignment :=
  match enforceNodeConsistency cw (initialDomains cw) with
  | none => none
  | some d1 =>
    match ac3 cw d1 none with
    | none => none
    | some (d2, _) =>
      match backtrack cw d2 [] with
      | none => none
      | some (_, r) => r

/-- The function `solve` instrumented with one observation: whether control reached the
call to `backtrack` (the backtracking search).  Identical control flow to
`solve`. -/
def solveTrace (cw : Crossword) : Option Assignment × Bool :=
  match enforceNodeConsistency cw (initialDomains cw) with
  | none => (none, false)
  | some d1 =>
    match ac3 cw d1 none with
    | none => (none, false)
    | some (d2, _) =>
      match backtrack cw d2 [] with
      | none => (none, true)
      | some (_, r) => (r, true)

/-- The overlap table is symmetric: the offsets of the shared cell into
each slot, in the slot's own order (a Grid Model guarantee per the spec,
and how `crossword.py` populates `overlaps` for both ordered pairs). -/
def OverlapsSymm (cw : Crossword) : Prop :=
  ∀ x y a b, cw.overlaps x y = some (a, b) → cw.overlaps y x = some (b, a)

/-- Every recorded overlap offset is inside its slot's length (a Grid
Model geometry guarantee per the spec). -/
def OverlapsInBounds (cw : Crossword) : Prop :=
  ∀ x y a b, cw.overlaps x y = some (a, b) → a < x.length ∧ b < y.length

/-- Node consistency of a domain map: every candidate of a slot has that
slot's length. -/
def NodeConsistent (cw : Crossword) (d : Domains) : Prop :=
  ∀ v ∈ cw.vars, ∀ w ∈ d v, w.length = v.length

/-- A valid complete assignment, as a function on slots: every slot gets a
word of the word list of matching length, distinct slots get distinct
words, and overlapping slots agree at the overlap offsets. -/
def IsSolution (cw : Crossword) (sol : Variable → Word) : Prop :=
  (∀ v ∈ cw.vars, sol v ∈ cw.words ∧ (sol v).length = v.length) ∧
  (∀ x ∈ cw.vars, ∀ y ∈ cw.vars, x ≠ y →
    sol x ≠ sol y ∧
      ∀ a b, cw.overlaps x y = some (a, b) → charAt (sol x) a = charAt (sol y) b)

/-- The character accesses `x_domain[a]` and `y_domain[b]` performed by
`revise (x, y)` are in bounds for every word they are applied to. -/
def ReviseInBounds (cw : Crossword) (d : Domains) (x y : Variable) : Prop :=
  ∀ a b, cw.overlaps x y = some (a, b) →
    (∀ v ∈ d x, a < v.length) ∧ ∀ w ∈ d y, b < w.length

/-! ## Concrete fixtures

Small crosswords realising the spec's concrete scenarios; used to witness
the theorems with hypotheses and to exhibit counterexamples. -/

/-- A length-3 ACROSS slot starting at cell (0, 0). -/
def slotX : Variable := ⟨0, 0, .across, 3⟩

/-- A length-3 DOWN slot starting at cell (0, 1), crossing `slotX` at
ACROSS-offset 1 / DOWN-offset 0. -/
def slotY : Variable := ⟨0, 1, .down, 3⟩

/-- Overlap table of scenario B: `slotX` and `slotY` cross at cell (0, 1),
which is offset 1 into `slotX` and offset 0 into `slotY`. -/
def overlapsB : Variable → Variable → Option (Nat × Nat) := fun p q =>
  if p = slotX then (if q = slotY then some (1, 0) else none)
  else if p = slotY then (if q = slotX then some (0, 1) else none)
  else none

/-- The spec's concrete scenario B: two crossing length-3 slots and the
word list {"cat", "art"}. -/
def cwB : Crossword where
  vars := [slotX, slotY]
  words := [['c', 'a', 't'], ['a', 'r', 't']]
  overlaps := overlapsB

/-- The spec's concrete scenario C: a single length-3 slot whose length
matches no word of the list {"ab"}. -/
def cwC : Crossword where
  vars := [slotX]
  words := [['a', 'b']]
  overlaps := fun _ _ => none

/-- Arc consistency of a domain family: for every overlapping ordered pair
of distinct slots, every candidate of the first has a distinct agreeing
support in the second's domain. -/
def ArcConsistent (cw : Crossword) (e : Domains) : Prop :=
  ∀ x ∈ cw.vars, ∀ y ∈ cw.vars, x ≠ y → ∀ a b,
    cw.overlaps x y = some (a, b) →
    ∀ v ∈ e x, ∃ w ∈ e y, v ≠ w ∧ charAt v a = charAt w b

/-- Well-formedness of a work queue: both slots of each arc are slots of
the crossword and distinct (true of the initial full queue and preserved
by the enqueue step). -/
def QueueOK (cw : Crossword) (q : List Arc) : Prop :=
  ∀ p ∈ q, p.1 ∈ cw.vars ∧ p.2 ∈ cw.vars ∧ p.1 ≠ p.2

/-- The family `d'` refines `d`: every slot's domain is a filter of the old one. -/
def Refines (d d' : Domains) : Prop :=
  ∀ v, ∃ p : Word → Bool, d' v = (d v).filter p

/-- Every overlapping ordered pair of slots is either pending in the
queue or already revise-stable: the key invariant tying the queue to
the domains. -/
def Covered (cw : Crossword) (q : List Arc) (d : Domains) : Prop :=
  ∀ x ∈ cw.vars, ∀ y ∈ cw.vars, x ≠ y → ∀ a b,
    cw.overlaps x y = some (a, b) →
    (x, y) ∈ q ∨ ∀ v ∈ d x, hasSupport (d y) a b v = true

/-- A length-2 ACROSS slot at (0, 0), crossing `slotYE` at its first
character. -/
def slotXE : Variable := ⟨0, 0, .across, 2⟩

/-- A length-2 DOWN slot at (0, 0). -/
def slotYE : Variable := ⟨0, 0, .down, 2⟩

/-- A length-3 ACROSS slot at (5, 0), crossing `slotQ` at its first
character. -/
def slotP : Variable := ⟨5, 0, .across, 3⟩

/-- A length-3 DOWN slot at (5, 0). -/
def slotQ : Variable := ⟨5, 0, .down, 3⟩

/-- Overlap table of the order-dependence fixture: two separate
crossings, at cell (0,0) for `slotXE`/`slotYE` and at cell (5,0) for
`slotP`/`slotQ`. -/
def overlapsE : Variable → Variable → Option (Nat × Nat) := fun p q =>
  if p = slotXE then (if q = slotYE then some (0, 0) else none)
  else if p = slotYE then (if q = slotXE then some (0, 0) else none)
  else if p = slotP then (if q = slotQ then some (0, 0) else none)
  else if p = slotQ then (if q = slotP then some (0, 0) else none)
  else none

/-- A grid with two disconnected crossings: the 2-letter crossing is
unsatisfiable (its revision empties a domain), the 3-letter crossing is
prunable but satisfiable. -/
def cwE : Crossword where
  vars := [slotXE, slotYE, slotP, slotQ]
  words := [['a', 'b'], ['c', 'd'], ['e', 'x', 'x'], ['g', 'x', 'x'],
    ['e', 'z', 'z']]
  overlaps := overlapsE

/-- The full initial arc list of `cwE` in its natural order. -/
def permEA : List Arc :=
  [(slotXE, slotYE), (slotYE, slotXE), (slotP, slotQ), (slotQ, slotP)]

/-- A permutation of `permEA` that processes the satisfiable crossing
first. -/
def permEB : List Arc :=
  [(slotP, slotQ), (slotXE, slotYE), (slotYE, slotXE), (slotQ, slotP)]

/-- The two opposite orders of scenario B's full arc list. -/
def permB1 : List Arc := [(slotX, slotY), (slotY, slotX)]

/-- See `permB1`. -/
def permB2 : List Arc := [(slotY, slotX), (slotX, slotY)]

/-- Number of unfilled slots of an assignment; the recursion measure of
the search. -/
def unassignedCount (cw : Crossword) (asg : Assignment) : Nat :=
  (cw.vars.filter (fun v => ! isAssigned asg v)).length

/-- Scenario B's overlap offsets are inside the slots' lengths. -/
theorem cwB_overlaps_inbounds : OverlapsInBounds cwB := by
  intro x y a b h
  have h' : overlapsB x y = some (a, b) := h
  unfold overlapsB at h'
  by_cases h1 : x = slotX
  · rw [if_pos h1] at h'
    by_cases h2 : y = slotY
    · rw [if_pos h2] at h'
      have hp := Option.some.inj h'
      obtain ⟨rfl, rfl⟩ : 1 = a ∧ 0 = b :=
        ⟨congrArg Prod.fst hp, congrArg Prod.snd hp⟩
      subst h1; subst h2
      exact ⟨by decide, by decide⟩
    · rw [if_neg h2] at h'; exact Option.noConfusion h'
  · rw [if_neg h1] at h'
    by_cases h2 : x = slotY
    · rw [if_pos h2] at h'
      by_cases h3 : y = slotX
      · rw [if_pos h3] at h'
        have hp := Option.some.inj h'
        obtain ⟨rfl, rfl⟩ : 0 = a ∧ 1 = b :=
          ⟨congrArg Prod.fst hp, congrArg Prod.snd hp⟩
        subst h2; subst h3
        exact ⟨by decide, by decide⟩
      · rw [if_neg h3] at h'; exact Option.noConfusion h'
    · rw [if_neg h2] at h'; exact Option.noConfusion h'

/-- Scenario B's node-consistent initial domains. -/
theorem cwB_node_consistent : NodeConsistent cwB (initialDomains cwB) := by
  unfold NodeConsistent
  decide

/-! ## Generic list lemmas -/

theorem insertLe_perm {α : Type} (le : α → α → Bool) (x : α) (l : List α) :
    (insertLe le x l).Perm (x :: l) := by
  induction l with
  | nil => simp [insertLe]
  | cons h t ih =>
    rw [insertLe]
    split
    · exact List.Perm.refl _
    · exact (ih.cons h).trans (List.Perm.swap x h t)

theorem sortLe_perm {α : Type} (le : α → α → Bool) (l : List α) :
    (sortLe le l).Perm l := by
  induction l with
  | nil => simp [sortLe]
  | cons h t ih => exact (insertLe_perm le h (sortLe le t)).trans (ih.cons h)

theorem mem_sortLe {α : Type} (le : α → α → Bool) (x : α) (l : List α) :
    x ∈ sortLe le l ↔ x ∈ l :=
  (sortLe_perm le l).mem_iff

/-- A sub-predicate filter is never longer. -/
theorem length_filter_le_filter {α : Type} (p q : α → Bool) (l : List α)
    (hpq : ∀ a, q a = true → p a = true) :
    (l.filter q).length ≤ (l.filter p).length := by
  induction l with
  | nil => simp
  | cons b t ih =>
    by_cases hqb : q b = true
    · rw [List.filter_cons_of_pos hqb, List.filter_cons_of_pos (hpq b hqb)]
      exact Nat.succ_le_succ ih
    · rw [List.filter_cons_of_neg (by simp [hqb])]
      by_cases hpb : p b = true
      · rw [List.filter_cons_of_pos hpb]; exact Nat.le_succ_of_le ih
      · rw [List.filter_cons_of_neg (by simp [hpb])]; exact ih

/-- A filter by a pointwise-stronger predicate that loses at least one
element is strictly shorter. -/
theorem filter_length_lt_filter {α : Type} (p q : α → Bool) (l : List α)
    (hpq : ∀ a, q a = true → p a = true)
    (h : ∃ a ∈ l, p a = true ∧ q a = false) :
    (l.filter q).length < (l.filter p).length := by
  induction l with
  | nil => obtain ⟨a, ha, _⟩ := h; exact absurd ha (List.not_mem_nil a)
  | cons b t ih =>
    obtain ⟨a, ha, hpa, hqa⟩ := h
    rcases List.mem_cons.mp ha with rfl | hat
    · rw [List.filter_cons_of_pos hpa, List.filter_cons_of_neg (by simp [hqa])]
      exact Nat.lt_succ_of_le (length_filter_le_filter p q t hpq)
    · by_cases hqb : q b = true
      · rw [List.filter_cons_of_pos (hpq b hqb), List.filter_cons_of_pos hqb]
        exact Nat.succ_lt_succ (ih ⟨a, hat, hpa, hqa⟩)
      · rw [List.filter_cons_of_neg (by simp [hqb])]
        calc (t.filter q).length < (t.filter p).length := ih ⟨a, hat, hpa, hqa⟩
          _ ≤ ((b :: t).filter p).length := by
              by_cases hpb : p b = true
              · rw [List.filter_cons_of_pos hpb]; exact Nat.le_succ _
              · rw [List.filter_cons_of_neg (by simp [hpb])]

/-! ## Lemmas about `revise` -/

theorem hasSupport_iff (dy : List Word) (a b : Nat) (v : Word) :
    hasSupport dy a b v = true ↔ ∃ w ∈ dy, v ≠ w ∧ charAt v a = charAt w b := by
  simp [hasSupport, List.any_eq_true, Bool.and_eq_true, decide_eq_true_iff]

theorem revise_of_overlaps_none (cw : Crossword) (d : Domains) (x y : Variable)
    (h : cw.overlaps x y = none) : revise cw d x y = (d, false) := by
  unfold revise
  rw [h]

/-- With an overlap, the revised pair is either "no removal, domains
unchanged, flag false" or "some unsupported word existed, the slot's
domain is filtered to the supported words, flag true". -/
theorem revise_of_overlaps_some (cw : Crossword) (d : Domains) (x y : Variable)
    (a b : Nat) (h : cw.overlaps x y = some (a, b)) :
    ((∀ w ∈ d x, hasSupport (d y) a b w = true) ∧ revise cw d x y = (d, false)) ∨
    ((∃ w ∈ d x, hasSupport (d y) a b w = false) ∧
      revise cw d x y =
        (updateD d x ((d x).filter (fun v => hasSupport (d y) a b v)), true)) := by
  unfold revise
  rw [h]
  by_cases he : ((d x).filter (fun v => ! hasSupport (d y) a b v)).isEmpty
  · left
    refine ⟨?_, by simp [he]⟩
    intro w hw
    rw [List.isEmpty_iff, List.filter_eq_nil_iff] at he
    have := he w hw
    simpa using this
  · right
    refine ⟨?_, by simp [he]⟩
    rw [List.isEmpty_iff] at he
    obtain ⟨w, hw⟩ := List.exists_mem_of_ne_nil _ he
    rw [List.mem_filter] at hw
    exact ⟨w, hw.1, by simpa using hw.2⟩

theorem revise_fst_apply_ne (cw : Crossword) (d : Domains) (x y v : Variable)
    (hv : v ≠ x) : (revise cw d x y).1 v = d v := by
  cases hov : cw.overlaps x y with
  | none => rw [revise_of_overlaps_none cw d x y hov]
  | some ab =>
    rcases revise_of_overlaps_some cw d x y ab.1 ab.2 (by rw [hov]) with ⟨_, he⟩ | ⟨_, he⟩
    · rw [he]
    · rw [he]; simp [updateD, hv]

/-- Every word of a revised domain was already there. -/
theorem revise_subset (cw : Crossword) (d : Domains) (x y v : Variable) (w : Word)
    (hw : w ∈ (revise cw d x y).1 v) : w ∈ d v := by
  by_cases hv : v = x
  · subst hv
    cases hov : cw.overlaps v y with
    | none => rwa [revise_of_overlaps_none cw d v y hov] at hw
    | some ab =>
      rcases revise_of_overlaps_some cw d v y ab.1 ab.2 (by rw [hov]) with ⟨_, he⟩ | ⟨_, he⟩
      · rwa [he] at hw
      · rw [he] at hw
        simp only [updateD, if_pos rfl] at hw
        exact (List.mem_filter.mp hw).1
  · rwa [revise_fst_apply_ne cw d x y v hv] at hw

/-- Membership in the revised domain of `x`: exactly the supported words
survive. -/
theorem mem_revise_fst (cw : Crossword) (d : Domains) (x y : Variable)
    (a b : Nat) (hov : cw.overlaps x y = some (a, b)) (w : Word) :
    w ∈ (revise cw d x y).1 x ↔ w ∈ d x ∧ hasSupport (d y) a b w = true := by
  rcases revise_of_overlaps_some cw d x y a b hov with ⟨hall, he⟩ | ⟨_, he⟩
  · rw [he]
    exact ⟨fun hw => ⟨hw, hall w hw⟩, fun hw => hw.1⟩
  · rw [he]
    simp [updateD, List.mem_filter]

/-- The revision flag is true exactly when some word of `x`'s domain lacks
support. -/
theorem revise_snd_iff (cw : Crossword) (d : Domains) (x y : Variable)
    (a b : Nat) (hov : cw.overlaps x y = some (a, b)) :
    (revise cw d x y).2 = true ↔ ∃ w ∈ d x, hasSupport (d y) a b w = false := by
  rcases revise_of_overlaps_some cw d x y a b hov with ⟨hall, he⟩ | ⟨hex, he⟩
  · rw [he]
    simp only [Bool.false_eq_true, false_iff]
    rintro ⟨w, hw, hns⟩
    rw [hall w hw] at hns
    exact Bool.noConfusion hns
  · rw [he]
    simpa using hex

/-- Claim C6: `revise(x, y)` removes from `x`'s domain exactly those
candidates `v` for which no word `w` in `y`'s domain satisfies both
`w ≠ v` and `v[a] == w[b]` for the overlap offsets `(a, b)`; when `x` and
`y` have no overlap it removes nothing (and other slots' domains are never
touched); and it returns `True` iff at least one word was removed. -/
theorem revise_removes_exactly_unsupported (cw : Crossword) (d : Domains)
    (x y : Variable) :
    (cw.overlaps x y = none → revise cw d x y = (d, false)) ∧
    (∀ a b, cw.overlaps x y = some (a, b) →
      (∀ w, w ∈ (revise cw d x y).1 x ↔
        w ∈ d x ∧ ∃ u ∈ d y, w ≠ u ∧ charAt w a = charAt u b) ∧
      (∀ v, v ≠ x → (revise cw d x y).1 v = d v) ∧
      ((revise cw d x y).2 = true ↔
        ∃ w ∈ d x, ¬∃ u ∈ d y, w ≠ u ∧ charAt w a = charAt u b)) := by
  refine ⟨revise_of_overlaps_none cw d x y, fun a b hov => ⟨?_, ?_, ?_⟩⟩
  · intro w
    rw [mem_revise_fst cw d x y a b hov w, hasSupport_iff]
  · exact fun v hv => revise_fst_apply_ne cw d x y v hv
  · rw [revise_snd_iff cw d x y a b hov]
    constructor
    · rintro ⟨w, hw, hns⟩
      refine ⟨w, hw, fun hc => ?_⟩
      rw [← hasSupport_iff (d y) a b w, hns] at hc
      exact Bool.noConfusion hc
    · rintro ⟨w, hw, hns⟩
      refine ⟨w, hw, ?_⟩
      rw [← Bool.not_eq_true, hasSupport_iff]
      exact hns

/-- Witness for C6 at scenario B: revising the ACROSS slot against the
DOWN slot (full initial domains) removes "art", keeps "cat", and reports a
revision. -/
theorem revise_removes_exactly_unsupported_witness :
    ['a', 'r', 't'] ∉ (revise cwB (initialDomains cwB) slotX slotY).1 slotX ∧
    ['c', 'a', 't'] ∈ (revise cwB (initialDomains cwB) slotX slotY).1 slotX ∧
    (revise cwB (initialDomains cwB) slotX slotY).2 = true := by
  have h := (revise_removes_exactly_unsupported cwB (initialDomains cwB) slotX slotY).2
    1 0 rfl
  refine ⟨fun hmem => ?_, ?_, ?_⟩
  · have hc := (h.1 _).mp hmem
    revert hc; decide
  · exact (h.1 _).mpr (by decide)
  · exact h.2.2.mpr (by decide)

/-- Claim C10: under the preconditions that the domains are node-consistent
and every recorded overlap offset pair lies inside the two slots' lengths,
the character accesses `x_domain[a]` and `y_domain[b]` inside `revise` are
in bounds for every arc `(x, y)` it is given. -/
theorem revise_indexing_safe (cw : Crossword) (d : Domains) (x y : Variable)
    (hx : x ∈ cw.vars) (hy : y ∈ cw.vars)
    (hnc : NodeConsistent cw d) (hob : OverlapsInBounds cw) :
    ReviseInBounds cw d x y := by
  intro a b hov
  obtain ⟨ha, hb⟩ := hob x y a b hov
  constructor
  · intro v hv
    rw [hnc x hx v hv]
    exact ha
  · intro w hw
    rw [hnc y hy w hw]
    exact hb

/-- Witness for C10 at scenario B: the offset-1 access into the word
"cat" of the ACROSS slot's domain is in bounds. -/
theorem revise_indexing_safe_witness :
    1 < (['c', 'a', 't'] : Word).length := by
  have h := revise_indexing_safe cwB (initialDomains cwB) slotX slotY
    (by decide) (by decide) cwB_node_consistent cwB_overlaps_inbounds
  exact (h 1 0 rfl).1 ['c', 'a', 't'] (by decide)

/-! ## Lemmas about `enforce_node_consistency` -/

/-- When every word has the right length, the word loop removes nothing. -/
theorem encWords_all_match (L : Nat) (ws dom : List Word)
    (h : ∀ w ∈ ws, w.length = L) : encWords L ws dom = some dom := by
  induction ws with
  | nil => rfl
  | cons w ws ih =>
    rw [encWords, if_neg (by simpa using h w (List.mem_cons_self w ws))]
    exact ih (fun w' hw' => h w' (List.mem_cons_of_mem w hw'))

/-- When the running domain holds only right-length words but the word
list still has a wrong-length word, the word loop raises `KeyError`. -/
theorem encWords_fail (L : Nat) (ws dom : List Word)
    (hdom : ∀ u ∈ dom, u.length = L) (h : ∃ w ∈ ws, w.length ≠ L) :
    encWords L ws dom = none := by
  induction ws with
  | nil => obtain ⟨w, hw, _⟩ := h; exact absurd hw (List.not_mem_nil w)
  | cons w ws ih =>
    by_cases hwl : w.length = L
    · rw [encWords, if_neg (by simpa using hwl)]
      obtain ⟨w', hw', hl'⟩ := h
      rcases List.mem_cons.mp hw' with rfl | hmem
      · exact absurd hwl hl'
      · exact ih ⟨w', hmem, hl'⟩
    · rw [encWords, if_pos (by simpa using hwl)]
      have : pyRemove dom w = none := by
        rw [pyRemove, if_neg]
        intro hmem
        exact hwl (hdom w hmem)
      rw [this]

/-- Full characterisation of a successful word loop: with distinct words
and every wrong-length word present, it succeeds and keeps exactly the
right-length part of the domain (plus words that are not in the iterated
list at all). -/
theorem encWords_success_spec (L : Nat) (ws dom : List Word)
    (hws : ws.Nodup) (hdom : dom.Nodup)
    (hpres : ∀ w ∈ ws, w.length ≠ L → w ∈ dom) :
    ∃ r, encWords L ws dom = some r ∧ r.Nodup ∧
      ∀ u, u ∈ r ↔ u ∈ dom ∧ (u.length ≠ L → u ∉ ws) := by
  induction ws generalizing dom with
  | nil => exact ⟨dom, rfl, hdom, fun u => by simp⟩
  | cons w ws ih =>
    by_cases hwl : w.length = L
    · rw [encWords, if_neg (by simpa using hwl)]
      obtain ⟨r, hr, hnd, hmem⟩ := ih dom (List.Nodup.of_cons hws) hdom
        (fun w' hw' hl' => hpres w' (List.mem_cons_of_mem w hw') hl')
      refine ⟨r, hr, hnd, fun u => ?_⟩
      rw [hmem u]
      constructor
      · rintro ⟨hu, himp⟩
        refine ⟨hu, fun hl => ?_⟩
        intro hin
        rcases List.mem_cons.mp hin with rfl | hin'
        · exact hl hwl
        · exact himp hl hin'
      · rintro ⟨hu, himp⟩
        exact ⟨hu, fun hl hin => himp hl (List.mem_cons_of_mem w hin)⟩
    · rw [encWords, if_pos (by simpa using hwl)]
      have hwin : w ∈ dom := hpres w (List.mem_cons_self w ws) hwl
      rw [pyRemove, if_pos hwin]
      have hnotin : w ∉ ws := (List.nodup_cons.mp hws).1
      obtain ⟨r, hr, hnd, hmem⟩ := ih (dom.erase w) (List.Nodup.of_cons hws)
        (hdom.erase w)
        (fun w' hw' hl' => (List.Nodup.mem_erase_iff hdom).mpr
          ⟨fun hc => hnotin (hc ▸ hw'), hpres w' (List.mem_cons_of_mem w hw') hl'⟩)
      refine ⟨r, hr, hnd, fun u => ?_⟩
      rw [hmem u, List.Nodup.mem_erase_iff hdom]
      constructor
      · rintro ⟨⟨hne, hu⟩, himp⟩
        refine ⟨hu, fun hl => ?_⟩
        intro hin
        rcases List.mem_cons.mp hin with rfl | hin'
        · exact hne rfl
        · exact himp hl hin'
      · rintro ⟨hu, himp⟩
        have hne : u ≠ w := by
          rintro rfl
          exact himp hwl (List.mem_cons_self u ws)
        exact ⟨⟨hne, hu⟩, fun hl hin => himp hl (List.mem_cons_of_mem w hin)⟩

/-- When every slot-word pair matches in length, the variable loop leaves
every domain (pointwise) unchanged. -/
theorem encVars_all_match (cw : Crossword) (vs : List Variable) (acc : Domains)
    (h : ∀ v ∈ vs, ∀ w ∈ cw.words, w.length = v.length) :
    ∃ d2, encVars cw vs acc = some d2 ∧ ∀ u, d2 u = acc u := by
  induction vs generalizing acc with
  | nil => exact ⟨acc, rfl, fun _ => rfl⟩
  | cons v vs ih =>
    rw [encVars, encVar,
      encWords_all_match v.length cw.words (acc v)
        (h v (List.mem_cons_self v vs))]
    obtain ⟨d2, hd2, hu⟩ := ih (updateD acc v (acc v))
      (fun v' hv' => h v' (List.mem_cons_of_mem v hv'))
    refine ⟨d2, hd2, fun u => ?_⟩
    rw [hu u, updateD]
    split
    · rename_i huv; rw [huv]
    · rfl

/-- When every remaining domain is already length-filtered and some
remaining slot still has a wrong-length word in the word list, the
variable loop raises `KeyError`. -/
theorem encVars_second_fail (cw : Crossword) (vs : List Variable) (acc : Domains)
    (hacc : ∀ v ∈ vs, ∀ u ∈ acc v, u.length = v.length)
    (h : ∃ v ∈ vs, ∃ w ∈ cw.words, w.length ≠ v.length) :
    encVars cw vs acc = none := by
  induction vs generalizing acc with
  | nil => obtain ⟨v, hv, _⟩ := h; exact absurd hv (List.not_mem_nil v)
  | cons v vs ih =>
    by_cases hvbad : ∃ w ∈ cw.words, w.length ≠ v.length
    · rw [encVars, encVar,
        encWords_fail v.length cw.words (acc v)
          (hacc v (List.mem_cons_self v vs)) hvbad]
    · rw [encVars, encVar,
        encWords_all_match v.length cw.words (acc v)
          (fun w hw => by_contra fun hc => hvbad ⟨w, hw, hc⟩)]
      apply ih (updateD acc v (acc v))
      · intro v' hv' u hu
        rw [updateD] at hu
        split at hu
        · rename_i hv'v
          rw [hv'v]
          exact hacc v (List.mem_cons_self v vs) u hu
        · exact hacc v' (List.mem_cons_of_mem v hv') u hu
      · obtain ⟨v', hv', hw⟩ := h
        rcases List.mem_cons.mp hv' with rfl | hmem
        · exact absurd hw hvbad
        · exact ⟨v', hmem, hw⟩

/-- Characterisation of the first node-consistency pass: starting from
fresh full domains (with distinct words and distinct slots) it succeeds,
and each slot's domain becomes exactly the right-length words. -/
theorem encVars_first (cw : Crossword) (hw : cw.words.Nodup) :
    ∀ (vs : List Variable) (acc : Domains), vs.Nodup →
    (∀ v ∈ vs, acc v = cw.words) →
    ∃ d1, encVars cw vs acc = some d1 ∧
      (∀ v ∈ vs, (d1 v).Nodup ∧
        ∀ u, u ∈ d1 v ↔ u ∈ cw.words ∧ u.length = v.length) ∧
      (∀ u, u ∉ vs → d1 u = acc u) := by
  intro vs
  induction vs with
  | nil => exact fun acc _ _ => ⟨acc, rfl, fun v hv => absurd hv (List.not_mem_nil v),
      fun _ _ => rfl⟩
  | cons v vs ih =>
    intro acc hnd hacc
    obtain ⟨r, hr, hrnd, hrmem⟩ := encWords_success_spec v.length cw.words
      (acc v) hw (hacc v (List.mem_cons_self v vs) ▸ hw)
      (fun w _ _ => by rw [hacc v (List.mem_cons_self v vs)]; assumption)
    rw [encVars, encVar, hr]
    obtain ⟨d1, hd1, hprops, hframe⟩ := ih (updateD acc v r)
      (List.Nodup.of_cons hnd)
      (fun v' hv' => by
        rw [updateD, if_neg]
        · exact hacc v' (List.mem_cons_of_mem v hv')
        · rintro rfl
          exact (List.nodup_cons.mp hnd).1 hv')
    have hrchar : ∀ u, u ∈ r ↔ u ∈ cw.words ∧ u.length = v.length := by
      intro u
      rw [hrmem u, hacc v (List.mem_cons_self v vs)]
      constructor
      · rintro ⟨hu, himp⟩
        refine ⟨hu, by_contra fun hc => himp hc hu⟩
      · rintro ⟨hu, hlen⟩
        exact ⟨hu, fun hc => absurd hlen hc⟩
    refine ⟨d1, hd1, ?_, ?_⟩
    · intro v' hv'
      rcases List.mem_cons.mp hv' with rfl | hmem
      · have : d1 v' = r := by
          rw [hframe v' (List.nodup_cons.mp hnd).1, updateD, if_pos rfl]
        rw [this]
        exact ⟨hrnd, hrchar⟩
      · exact hprops v' hmem
    · intro u hu
      have hunev : u ∉ vs := fun hc => hu (List.mem_cons_of_mem v hc)
      rw [hframe u hunev, updateD,
        if_neg (fun hc => hu (by rw [hc]; exact List.mem_cons_self v vs))]

/-- The first node-consistency pass on fresh domains. -/
theorem enc_first_pass (cw : Crossword) (hw : cw.words.Nodup)
    (hv : cw.vars.Nodup) :
    ∃ d1, enforceNodeConsistency cw (initialDomains cw) = some d1 ∧
      ∀ v ∈ cw.vars, (d1 v).Nodup ∧
        ∀ u, u ∈ d1 v ↔ u ∈ cw.words ∧ u.length = v.length := by
  obtain ⟨d1, hd1, hprops, _⟩ := encVars_first cw hw cw.vars (initialDomains cw)
    hv (fun _ _ => rfl)
  exact ⟨d1, hd1, hprops⟩

/-- Counterexample to C3 as stated: on the single-slot scenario C (slot of
length 3, word list {"ab"}) the first node-consistency pass succeeds but a
second run raises `KeyError` (models as `none`) instead of completing
normally. -/
theorem node_consistency_second_run_raises :
    ((enforceNodeConsistency cwC (initialDomains cwC)).bind
      (fun d1 => enforceNodeConsistency cwC d1)) = none ∧
    (enforceNodeConsistency cwC (initialDomains cwC)).isSome = true := by
  exact ⟨rfl, rfl⟩

/-- Claim C3, amended.  After one `enforce_node_consistency` pass on the
freshly initialized domains, a second run completes normally iff the first
pass removed nothing (i.e. every word's length matches every slot's
length, so the domains were already node-consistent); in that case it
leaves every slot's domain exactly as the first pass left it.  Otherwise
the second run raises `KeyError` (Python's `set.remove` on an absent
word), modelled as `none`. -/
theorem node_consistency_second_run (cw : Crossword) (d1 : Domains)
    (hw : cw.words.Nodup) (hv : cw.vars.Nodup)
    (h1 : enforceNodeConsistency cw (initialDomains cw) = some d1) :
    (enforceNodeConsistency cw d1 = none ↔
      ∃ v ∈ cw.vars, ∃ w ∈ cw.words, w.length ≠ v.length) ∧
    (∀ d2, enforceNodeConsistency cw d1 = some d2 → ∀ u, d2 u = d1 u) := by
  obtain ⟨d1', hd1', hprops⟩ := enc_first_pass cw hw hv
  rw [h1] at hd1'
  obtain rfl : d1 = d1' := Option.some.inj hd1' 
  have hlenfilt : ∀ v ∈ cw.vars, ∀ u ∈ d1 v, u.length = v.length :=
    fun v hv' u hu => ((hprops v hv').2 u).mp hu |>.2
  constructor
  · constructor
    · intro hnone
      by_contra hc
      push_neg at hc
      obtain ⟨d2, hd2, _⟩ := encVars_all_match cw cw.vars d1
        (fun v hv' w hw' => hc v hv' w hw')
      rw [enforceNodeConsistency] at hnone
      rw [hnone] at hd2
      exact Option.noConfusion hd2
    · intro hex
      exact encVars_second_fail cw cw.vars d1 hlenfilt hex
  · intro d2 hd2 u
    by_cases hex : ∃ v ∈ cw.vars, ∃ w ∈ cw.words, w.length ≠ v.length
    · rw [enforceNodeConsistency,
        encVars_second_fail cw cw.vars d1 hlenfilt hex] at hd2
      exact Option.noConfusion hd2
    · push_neg at hex
      obtain ⟨d2', hd2', hu⟩ := encVars_all_match cw cw.vars d1
        (fun v hv' w hw' => hex v hv' w hw')
      rw [enforceNodeConsistency] at hd2
      rw [hd2] at hd2'
      rw [Option.some.inj hd2']
      exact hu u

/-- Witness for (amended) C3 at scenario B: there every word length
matches every slot length, so the first pass removes nothing and a second
run completes normally. -/
theorem node_consistency_second_run_witness :
    ((enforceNodeConsistency cwB (initialDomains cwB)).bind
      (fun d1 => enforceNodeConsistency cwB d1)).isSome = true := by
  cases h : enforceNodeConsistency cwB (initialDomains cwB) with
  | none =>
    have hs : (enforceNodeConsistency cwB (initialDomains cwB)).isSome = true := rfl
    rw [h] at hs
    exact Bool.noConfusion hs
  | some d1 =>
    have hiff := (node_consistency_second_run cwB d1 (by decide) (by decide) h).1
    have hno : ¬∃ v ∈ cwB.vars, ∃ w ∈ cwB.words, w.length ≠ v.length := by decide
    rw [Option.some_bind, Option.isSome_iff_ne_none]
    intro hc
    exact hno (hiff.mp hc)

/-! ## Lemmas about assignments, selection and value ordering -/

theorem lookupA_mem (asg : Assignment) (v : Variable) (w : Word)
    (h : lookupA asg v = some w) : (v, w) ∈ asg := by
  induction asg with
  | nil => exact Option.noConfusion h
  | cons p rest ih =>
    obtain ⟨k, w'⟩ := p
    rw [lookupA] at h
    split at h
    · rename_i hk
      obtain rfl := Option.some.inj h
      subst hk
      exact List.mem_cons_self _ _
    · exact List.mem_cons_of_mem _ (ih h)

theorem isAssigned_cons_false (k : Variable) (w : Word) (asg : Assignment)
    (v : Variable) (h : isAssigned ((k, w) :: asg) v = false) :
    isAssigned asg v = false := by
  unfold isAssigned at h ⊢
  rw [lookupA] at h
  split at h
  · exact Bool.noConfusion h
  · exact h

theorem consistent_iff (cw : Crossword) (asg : Assignment) :
    consistent cw asg = true ↔
      ∀ p ∈ asg, p.1.length = p.2.length ∧
        ∀ q ∈ asg, p.1 ≠ q.1 →
          p.2 ≠ q.2 ∧ ∀ a b, cw.overlaps p.1 q.1 = some (a, b) →
            charAt p.2 a = charAt q.2 b := by
  unfold consistent
  rw [List.all_eq_true]
  apply Iff.intro
  · intro h p hp
    have hp' := h p hp
    rw [Bool.and_eq_true, List.all_eq_true] at hp'
    refine ⟨by simpa using hp'.1, fun q hq hne => ?_⟩
    have hq' := hp'.2 q hq
    rw [if_neg hne, Bool.and_eq_true] at hq'
    refine ⟨by simpa using hq'.1, fun a b hab => ?_⟩
    have hm := hq'.2
    rw [hab] at hm
    simpa using hm
  · intro h p hp
    rw [Bool.and_eq_true, List.all_eq_true]
    refine ⟨by simpa using (h p hp).1, fun q hq => ?_⟩
    by_cases hne : p.1 = q.1
    · rw [if_pos hne]
    · rw [if_neg hne, Bool.and_eq_true]
      obtain ⟨hne2, hov⟩ := (h p hp).2 q hq hne
      refine ⟨by simpa using hne2, ?_⟩
      cases hab : cw.overlaps p.1 q.1 with
      | none => rfl
      | some ab => simpa using hov ab.1 ab.2 (by rw [hab])

theorem assignmentComplete_iff (cw : Crossword) (asg : Assignment) :
    assignmentComplete cw asg = true ↔
      ∀ v ∈ cw.vars, ∃ w, lookupA asg v = some w ∧ w ∈ cw.words := by
  unfold assignmentComplete
  rw [List.all_eq_true]
  apply Iff.intro
  · intro h v hv
    have hm := h v hv
    cases hl : lookupA asg v with
    | none => rw [hl] at hm; exact Bool.noConfusion hm
    | some w => rw [hl] at hm; exact ⟨w, rfl, by simpa using hm⟩
  · intro h v hv
    obtain ⟨w, hw, hmem⟩ := h v hv
    rw [hw]
    simpa using hmem

theorem selectUnassignedVariable_props (cw : Crossword) (d : Domains)
    (asg : Assignment) (var : Variable)
    (h : selectUnassignedVariable cw d asg = some var) :
    var ∈ cw.vars ∧ isAssigned asg var = false := by
  unfold selectUnassignedVariable at h
  revert h
  cases hs : sortLe selectKeyLe
      ((cw.vars.filter (fun v => ! isAssigned asg v)).map
        (fun v => (v, (d v).length, (cw.neighbors v).length))) with
  | nil => intro h; exact Option.noConfusion h
  | cons hd tl =>
    intro h
    obtain rfl : hd.1 = var := Option.some.inj h
    have hmem : hd ∈ sortLe selectKeyLe
        ((cw.vars.filter (fun v => ! isAssigned asg v)).map
          (fun v => (v, (d v).length, (cw.neighbors v).length))) := by
      rw [hs]; exact List.mem_cons_self hd tl
    rw [mem_sortLe, List.mem_map] at hmem
    obtain ⟨v, hv, rfl⟩ := hmem
    rw [List.mem_filter] at hv
    exact ⟨hv.1, by simpa using hv.2⟩

/-- When some slot is unfilled (and every assigned value is a word, which
holds throughout the search), `select_unassigned_variable` returns a
slot. -/
theorem selectUnassignedVariable_isSome (cw : Crossword) (d : Domains)
    (asg : Assignment) (v : Variable) (hv : v ∈ cw.vars)
    (hun : isAssigned asg v = false) :
    (selectUnassignedVariable cw d asg).isSome = true := by
  unfold selectUnassignedVariable
  cases hs : sortLe selectKeyLe
      ((cw.vars.filter (fun v => ! isAssigned asg v)).map
        (fun v => (v, (d v).length, (cw.neighbors v).length))) with
  | cons hd tl => rfl
  | nil =>
    exfalso
    have hmem : (v, (d v).length, (cw.neighbors v).length) ∈
        sortLe selectKeyLe
          ((cw.vars.filter (fun v => ! isAssigned asg v)).map
            (fun v => (v, (d v).length, (cw.neighbors v).length))) := by
      rw [mem_sortLe, List.mem_map]
      exact ⟨v, List.mem_filter.mpr ⟨hv, by simpa using hun⟩, rfl⟩
    rw [hs] at hmem
    exact List.not_mem_nil _ hmem

theorem orderDomainValues_subset (cw : Crossword) (d : Domains)
    (var : Variable) (asg : Assignment) :
    ∀ val ∈ orderDomainValues cw d var asg, val ∈ d var := by
  intro val hval
  unfold orderDomainValues at hval
  rw [List.mem_map] at hval
  obtain ⟨p, hp, rfl⟩ := hval
  rw [mem_sortLe, List.mem_map] at hp
  obtain ⟨w, hw, rfl⟩ := hp
  exact hw

theorem mem_orderDomainValues (cw : Crossword) (d : Domains)
    (var : Variable) (asg : Assignment) :
    ∀ val ∈ d var, val ∈ orderDomainValues cw d var asg := by
  intro val hval
  unfold orderDomainValues
  rw [List.mem_map]
  refine ⟨(val, ruledOutCount cw d var (unassignedNeighbors cw asg var) val), ?_, rfl⟩
  rw [mem_sortLe, List.mem_map]
  exact ⟨val, hval, rfl⟩

/-! ## Frame and extension properties of the search -/

theorem tryVals_frame (cw : Crossword)
    (bt : Domains → Assignment → Option (Domains × Option Assignment))
    (hbt : ∀ d0 a res, bt d0 a = some res → res.1 = d0)
    (var : Variable) (asg : Assignment) :
    ∀ (vals : List Word) (d0 : Domains) (res : Domains × Option Assignment),
      tryVals cw bt var asg vals d0 = some res → res.1 = d0 := by
  intro vals
  induction vals with
  | nil =>
    intro d0 res h
    cases Option.some.inj h
    rfl
  | cons val rest ih =>
    intro d0 res h
    rw [tryVals] at h
    by_cases hcons : consistent cw ((var, val) :: asg) = true
    · rw [if_pos hcons] at h
      cases hbt' : bt d0 ((var, val) :: asg) with
      | none => rw [hbt'] at h; exact Option.noConfusion h
      | some p =>
        rw [hbt'] at h
        obtain ⟨d1, r⟩ := p
        dsimp only at h
        have hd1 : d1 = d0 := hbt d0 _ _ hbt'
        by_cases htr : pyTruthy r = true
        · rw [if_pos htr] at h
          cases Option.some.inj h
          exact hd1
        · rw [if_neg htr] at h
          rw [ih d1 res h]
          exact hd1
    · rw [if_neg hcons] at h
      exact ih d0 res h

theorem backtrackF_frame (cw : Crossword) :
    ∀ (n : Nat) (d : Domains) (asg : Assignment)
      (res : Domains × Option Assignment),
      backtrackF cw n d asg = some res → res.1 = d := by
  intro n
  induction n with
  | zero =>
    intro d asg res h
    exact Option.noConfusion h
  | succ n ih =>
    intro d asg res h
    rw [backtrackF] at h
    by_cases hcomp : assignmentComplete cw asg = true
    · rw [if_pos hcomp] at h
      cases Option.some.inj h
      rfl
    · rw [if_neg hcomp] at h
      cases hsel : selectUnassignedVariable cw d asg with
      | none =>
        rw [hsel] at h
        cases Option.some.inj h
        rfl
      | some var =>
        rw [hsel] at h
        exact tryVals_frame cw _ (fun d0 a r hr => ih d0 a r hr) var asg _ d res h

/-- The grand invariant of the value loop: any truthy result is a
consistent (when the input was), complete assignment extending the input
by fresh slots whose values come from the current domains. -/
theorem tryVals_spec (cw : Crossword)
    (bt : Domains → Assignment → Option (Domains × Option Assignment))
    (hframe : ∀ d0 a res, bt d0 a = some res → res.1 = d0)
    (hspec : ∀ d0 a d1 r out, bt d0 a = some (d1, r) → r = some out →
      (consistent cw a = true → consistent cw out = true) ∧
      assignmentComplete cw out = true ∧
      ∃ ext, out = ext ++ a ∧ ∀ p ∈ ext,
        p.1 ∈ cw.vars ∧ p.2 ∈ d0 p.1 ∧ isAssigned a p.1 = false)
    (var : Variable) (hvar : var ∈ cw.vars) (asg : Assignment)
    (hun : isAssigned asg var = false) :
    ∀ (vals : List Word) (d0 : Domains), (∀ val ∈ vals, val ∈ d0 var) →
      ∀ d' r out, tryVals cw bt var asg vals d0 = some (d', r) → r = some out →
      (consistent cw asg = true → consistent cw out = true) ∧
      assignmentComplete cw out = true ∧
      ∃ ext, out = ext ++ asg ∧ ∀ p ∈ ext,
        p.1 ∈ cw.vars ∧ p.2 ∈ d0 p.1 ∧ isAssigned asg p.1 = false := by
  intro vals
  induction vals with
  | nil =>
    intro d0 _ d' r out h hr
    cases Option.some.inj h
    exact Option.noConfusion hr
  | cons val rest ih =>
    intro d0 hvals d' r out h hr
    rw [tryVals] at h
    by_cases hcons : consistent cw ((var, val) :: asg) = true
    · rw [if_pos hcons] at h
      cases hbt' : bt d0 ((var, val) :: asg) with
      | none => rw [hbt'] at h; exact Option.noConfusion h
      | some p =>
        rw [hbt'] at h
        obtain ⟨d1, r1⟩ := p
        dsimp only at h
        have hd1 : d1 = d0 := hframe d0 _ _ hbt'
        by_cases htr : pyTruthy r1 = true
        · rw [if_pos htr] at h
          obtain ⟨rfl, rfl⟩ : d1 = d' ∧ r1 = r := by
            have hp := Option.some.inj h
            exact ⟨congrArg Prod.fst hp, congrArg Prod.snd hp⟩
          obtain ⟨hco, hcp, ext, hext, hprops⟩ :=
            hspec d0 ((var, val) :: asg) d1 r1 out hbt' hr
          refine ⟨fun _ => hco hcons, hcp, ext ++ [(var, val)], ?_, ?_⟩
          · rw [hext, List.append_assoc]
            rfl
          · intro p hp
            rcases List.mem_append.mp hp with hp1 | hp2
            · obtain ⟨hv1, hv2, hv3⟩ := hprops p hp1
              exact ⟨hv1, hv2, isAssigned_cons_false var val asg p.1 hv3⟩
            · rw [List.mem_singleton] at hp2
              subst hp2
              exact ⟨hvar, hvals val (List.mem_cons_self val rest), hun⟩
        · rw [if_neg htr] at h
          rw [hd1] at h
          exact ih d0 (fun v hv => hvals v (List.mem_cons_of_mem val hv))
            d' r out h hr
    · rw [if_neg hcons] at h
      exact ih d0 (fun v hv => hvals v (List.mem_cons_of_mem val hv)) d' r out h hr

theorem backtrackF_spec (cw : Crossword) :
    ∀ (n : Nat) (d : Domains) (asg : Assignment) (d' : Domains)
      (r : Option Assignment) (out : Assignment),
      backtrackF cw n d asg = some (d', r) → r = some out →
      (consistent cw asg = true → consistent cw out = true) ∧
      assignmentComplete cw out = true ∧
      ∃ ext, out = ext ++ asg ∧ ∀ p ∈ ext,
        p.1 ∈ cw.vars ∧ p.2 ∈ d p.1 ∧ isAssigned asg p.1 = false := by
  intro n
  induction n with
  | zero =>
    intro d asg d' r out h
    exact Option.noConfusion h
  | succ n ih =>
    intro d asg d' r out h hr
    rw [backtrackF] at h
    by_cases hcomp : assignmentComplete cw asg = true
    · rw [if_pos hcomp] at h
      obtain ⟨rfl, rfl⟩ : d = d' ∧ (some asg : Option Assignment) = r := by
        have hp := Option.some.inj h
        exact ⟨congrArg Prod.fst hp, congrArg Prod.snd hp⟩
      obtain rfl : asg = out := Option.some.inj hr
      exact ⟨fun hc => hc, hcomp, [], rfl, fun p hp => absurd hp (List.not_mem_nil p)⟩
    · rw [if_neg hcomp] at h
      cases hsel : selectUnassignedVariable cw d asg with
      | none =>
        rw [hsel] at h
        obtain ⟨rfl, rfl⟩ : d = d' ∧ (none : Option Assignment) = r := by
          have hp := Option.some.inj h
          exact ⟨congrArg Prod.fst hp, congrArg Prod.snd hp⟩
        exact Option.noConfusion hr
      | some var =>
        rw [hsel] at h
        obtain ⟨hvar, hun⟩ := selectUnassignedVariable_props cw d asg var hsel
        exact tryVals_spec cw _ (fun d0 a res hres => backtrackF_frame cw n d0 a res hres)
          (fun d0 a d1 r1 out1 hbt hr1 => ih d0 a d1 r1 out1 hbt hr1)
          var hvar asg hun _ d (fun val hval => orderDomainValues_subset cw d var asg val hval)
          d' r out h hr

/-- Claim C8: the search phase never mutates the Domain Store: a call to
`backtrack` (with all its recursive calls, through
`select_unassigned_variable` and `order_domain_values`) returns the
per-slot domains exactly as they were before the call, and it never
mutates its input assignment — any returned assignment only extends the
input (which survives intact as a suffix). -/
theorem backtrack_no_domain_mutation (cw : Crossword) (d : Domains)
    (asg : Assignment) (res : Domains × Option Assignment)
    (h : backtrack cw d asg = some res) :
    res.1 = d ∧ ∀ out, res.2 = some out → ∃ ext, out = ext ++ asg := by
  refine ⟨backtrackF_frame cw _ d asg res h, fun out hout => ?_⟩
  obtain ⟨d', r⟩ := res
  obtain ⟨_, _, ext, hext, _⟩ :=
    backtrackF_spec cw _ d asg d' r out h hout
  exact ⟨ext, hext⟩

/-- Witness for C8 at scenario B: the solved search hands back the
ACROSS slot's domain untouched. -/
theorem backtrack_no_domain_mutation_witness :
    (backtrack cwB (initialDomains cwB) []).map (fun res => res.1 slotX) =
      some (initialDomains cwB slotX) := by
  cases h : backtrack cwB (initialDomains cwB) [] with
  | none =>
    have hs : (backtrack cwB (initialDomains cwB) []).isSome = true := rfl
    rw [h] at hs
    exact Bool.noConfusion hs
  | some res =>
    have hd := (backtrack_no_domain_mutation cwB (initialDomains cwB) [] res h).1
    show some (res.1 slotX) = some (initialDomains cwB slotX)
    rw [hd]

/-! ## Soundness of `solve` -/

/-- Any assignment returned by `solve` passed the source's `consistent`
and `assignment_complete` checks. -/
theorem solve_complete_consistent (cw : Crossword) (r : Assignment)
    (h : solve cw = some r) :
    consistent cw r = true ∧ assignmentComplete cw r = true := by
  unfold solve at h
  cases h1 : enforceNodeConsistency cw (initialDomains cw) with
  | none => rw [h1] at h; exact Option.noConfusion h
  | some d1 =>
    rw [h1] at h
    dsimp only at h
    cases h2 : ac3 cw d1 none with
    | none => rw [h2] at h; exact Option.noConfusion h
    | some p =>
      rw [h2] at h
      obtain ⟨d2, b⟩ := p
      dsimp only at h
      cases h3 : backtrack cw d2 [] with
      | none => rw [h3] at h; exact Option.noConfusion h
      | some q =>
        rw [h3] at h
        obtain ⟨dres, ropt⟩ := q
        dsimp only at h
        obtain ⟨hcons, hcomp, _⟩ :=
          backtrackF_spec cw (cw.vars.length + 1) d2 [] dres ropt r h3 h
        exact ⟨hcons rfl, hcomp⟩

/-- Claim C1: soundness of the solver: whenever `solve` (node consistency,
AC-3, then `backtrack`) returns an assignment rather than failure, that
assignment maps every slot to a word of the word list whose length equals
the slot's length, any two distinct slots hold distinct words (overlap or
not), and every pair with an overlap offset agrees at the respective
offsets. -/
theorem solver_sound (cw : Crossword) (r : Assignment) (h : solve cw = some r) :
    (∀ v ∈ cw.vars, ∃ w, lookupA r v = some w ∧ w ∈ cw.words ∧
      w.length = v.length) ∧
    (∀ x ∈ cw.vars, ∀ y ∈ cw.vars, x ≠ y →
      ∀ w1 w2, lookupA r x = some w1 → lookupA r y = some w2 →
        w1 ≠ w2 ∧ ∀ a b, cw.overlaps x y = some (a, b) →
          charAt w1 a = charAt w2 b) := by
  obtain ⟨hc, hcomp⟩ := solve_complete_consistent cw r h
  have hcomplete := (assignmentComplete_iff cw r).mp hcomp
  have hcon := (consistent_iff cw r).mp hc
  constructor
  · intro v hv
    obtain ⟨w, hw, hwords⟩ := hcomplete v hv
    have hmem := lookupA_mem r v w hw
    exact ⟨w, hw, hwords, ((hcon (v, w) hmem).1).symm⟩
  · intro x hx y hy hxy w1 w2 hw1 hw2
    have hm1 := lookupA_mem r x w1 hw1
    have hm2 := lookupA_mem r y w2 hw2
    exact (hcon (x, w1) hm1).2 (y, w2) hm2 hxy

/-- Witness for C1 at scenario B: `solve` finds "cat"/"art" crossing on
the shared 'a', and the soundness theorem yields the distinctness and
offset agreement of that pair. -/
theorem solver_sound_witness :
    ['c', 'a', 't'] ≠ ['a', 'r', 't'] ∧
    charAt ['c', 'a', 't'] 1 = charAt ['a', 'r', 't'] 0 := by
  have h := (solver_sound cwB
      [(slotY, ['a', 'r', 't']), (slotX, ['c', 'a', 't'])] rfl).2
    slotX (by decide) slotY (by decide) (by decide)
    ['c', 'a', 't'] ['a', 'r', 't'] rfl rfl
  exact ⟨h.1, h.2 1 0 rfl⟩

/-- Counterexample to C4 as stated: on scenario C (a slot whose length
matches no word) `solve` does return failure, but it does not abort before
the search — the backtracking search is still entered (the instrumented
control flow records it). -/
theorem solve_unmatched_slot_enters_search :
    (∀ w ∈ cwC.words, w.length ≠ slotX.length) ∧ slotX ∈ cwC.vars ∧
    solveTrace cwC = (none, true) := by
  exact ⟨by decide, by decide, rfl⟩

/-- Claim C4, amended.  For every grid and word list containing some slot
whose length matches no word, `solve` reports failure (`None`); the empty
node-consistent domain does not cause an early abort, however — `solve`
unconditionally runs AC-3 and the backtracking search, which finds no
candidate for that slot and returns `None`. -/
theorem solve_fails_on_unmatched_slot (cw : Crossword)
    (hbad : ∃ v ∈ cw.vars, ∀ w ∈ cw.words, w.length ≠ v.length) :
    solve cw = none := by
  cases hs : solve cw with
  | none => rfl
  | some r =>
    exfalso
    obtain ⟨v, hv, hnone⟩ := hbad
    have hcomplete :=
      (assignmentComplete_iff cw r).mp (solve_complete_consistent cw r hs).2
    have hcon := (consistent_iff cw r).mp (solve_complete_consistent cw r hs).1
    obtain ⟨w, hw, hwords⟩ := hcomplete v hv
    exact hnone w hwords ((hcon (v, w) (lookupA_mem r v w hw)).1).symm

/-- Witness for (amended) C4 at scenario C. -/
theorem solve_fails_on_unmatched_slot_witness : solve cwC = none :=
  solve_fails_on_unmatched_slot cwC ⟨slotX, by decide, by decide⟩

/-- Claim C9: `ac3` called with an explicitly empty arc list is
indistinguishable from `ac3` with no arcs at all: the guard is Python
falsiness (`if not arcs`), so `ac3([])` builds the full initial queue of
every ordered pair of neighboring slots and performs full propagation
(concretely: on scenario B with full domains it prunes both slots'
domains) rather than doing no work and returning `True` with domains
unchanged. -/
theorem ac3_empty_arcs_eq_none :
    (∀ (cw : Crossword) (d : Domains), ac3 cw d (some []) = ac3 cw d none) ∧
    (ac3 cwB (initialDomains cwB) (some [])).map
        (fun p => (p.1 slotX, p.1 slotY, p.2)) =
      some ([['c', 'a', 't']], [['a', 'r', 't']], true) ∧
    initialDomains cwB slotX ≠ [['c', 'a', 't']] := by
  exact ⟨fun _ _ => rfl, rfl, by decide⟩

/-! ## The AC-3 invariants -/

theorem mem_neighbors (cw : Crossword) (x z : Variable) :
    z ∈ cw.neighbors x ↔ z ∈ cw.vars ∧ z ≠ x ∧ (cw.overlaps x z).isSome := by
  unfold Crossword.neighbors
  rw [List.mem_filter, Bool.and_eq_true, decide_eq_true_iff]

theorem mem_fullQueue (cw : Crossword) (x y : Variable) :
    (x, y) ∈ fullQueue cw ↔
      x ∈ cw.vars ∧ y ∈ cw.vars ∧ y ≠ x ∧ (cw.overlaps x y).isSome := by
  unfold fullQueue
  rw [List.mem_flatten]
  constructor
  · rintro ⟨l, hl, hmem⟩
    rw [List.mem_map] at hl
    obtain ⟨v1, hv1, rfl⟩ := hl
    rw [List.mem_map] at hmem
    obtain ⟨v2, hv2, heq⟩ := hmem
    obtain ⟨rfl, rfl⟩ : v1 = x ∧ v2 = y :=
      ⟨congrArg Prod.fst heq, congrArg Prod.snd heq⟩
    rw [mem_neighbors] at hv2
    exact ⟨hv1, hv2.1, hv2.2.1, hv2.2.2⟩
  · rintro ⟨hx, hy, hne, hov⟩
    refine ⟨(cw.neighbors x).map (fun v2 => (x, v2)), ?_, ?_⟩
    · exact List.mem_map_of_mem _ hx
    · exact List.mem_map_of_mem _ ((mem_neighbors cw x y).mpr ⟨hy, hne, hov⟩)

theorem queueOK_fullQueue (cw : Crossword) : QueueOK cw (fullQueue cw) := by
  intro p hp
  obtain ⟨x, y⟩ := p
  rw [mem_fullQueue] at hp
  exact ⟨hp.1, hp.2.1, Ne.symm hp.2.2.1⟩

theorem queueOK_cons (cw : Crossword) (p : Arc) (rest : List Arc)
    (h : QueueOK cw (p :: rest)) : QueueOK cw rest :=
  fun a ha => h a (List.mem_cons_of_mem p ha)

theorem queueOK_append_enq (cw : Crossword) (x y : Variable) (rest : List Arc)
    (h : QueueOK cw ((x, y) :: rest)) :
    QueueOK cw (rest ++
      ((cw.neighbors x).filter (fun z => decide (z ≠ y))).map (fun z => (z, x))) := by
  intro p hp
  rcases List.mem_append.mp hp with h1 | h2
  · exact h p (List.mem_cons_of_mem _ h1)
  · rw [List.mem_map] at h2
    obtain ⟨z, hz, rfl⟩ := h2
    rw [List.mem_filter] at hz
    have hzn := (mem_neighbors cw x z).mp hz.1
    exact ⟨hzn.1, (h (x, y) (List.mem_cons_self _ _)).1, hzn.2.1⟩

theorem revise_false_eq (cw : Crossword) (d : Domains) (x y : Variable)
    (h : (revise cw d x y).2 = false) : (revise cw d x y).1 = d := by
  cases hov : cw.overlaps x y with
  | none => rw [revise_of_overlaps_none cw d x y hov]
  | some ab =>
    rcases revise_of_overlaps_some cw d x y ab.1 ab.2 (by rw [hov]) with
      ⟨_, he⟩ | ⟨_, he⟩
    · rw [he]
    · rw [he] at h
      exact Bool.noConfusion h

theorem refines_refl (d : Domains) : Refines d d :=
  fun v => ⟨fun _ => true, (List.filter_true _).symm⟩

theorem refines_trans {d e f : Domains} (h1 : Refines d e) (h2 : Refines e f) :
    Refines d f := by
  intro v
  obtain ⟨p, hp⟩ := h1 v
  obtain ⟨q, hq⟩ := h2 v
  refine ⟨fun w => q w && p w, ?_⟩
  rw [hq, hp, List.filter_filter]

theorem refines_mem {d d' : Domains} (h : Refines d d') :
    ∀ v, ∀ w ∈ d' v, w ∈ d v := by
  intro v w hw
  obtain ⟨p, hp⟩ := h v
  rw [hp] at hw
  exact (List.mem_filter.mp hw).1

theorem refines_ne_nil {d d' : Domains} (h : Refines d d') (v : Variable)
    (hv : d' v ≠ []) : d v ≠ [] := by
  intro hc
  obtain ⟨p, hp⟩ := h v
  rw [hc] at hp
  exact hv hp

theorem revise_refines (cw : Crossword) (d : Domains) (x y : Variable) :
    Refines d (revise cw d x y).1 := by
  intro v
  by_cases hv : v = x
  · subst hv
    cases hov : cw.overlaps v y with
    | none =>
      rw [revise_of_overlaps_none cw d v y hov]
      exact ⟨fun _ => true, (List.filter_true _).symm⟩
    | some ab =>
      rcases revise_of_overlaps_some cw d v y ab.1 ab.2 (by rw [hov]) with
        ⟨_, he⟩ | ⟨_, he⟩
      · rw [he]
        exact ⟨fun _ => true, (List.filter_true _).symm⟩
      · rw [he]
        refine ⟨fun w => hasSupport (d y) ab.1 ab.2 w, ?_⟩
        simp [updateD]
  · rw [revise_fst_apply_ne cw d x y v hv]
    exact ⟨fun _ => true, (List.filter_true _).symm⟩

/-- AC-3 only ever filters domains. -/
theorem ac3F_refines (cw : Crossword) :
    ∀ (n : Nat) (q : List Arc) (d d' : Domains) (b : Bool),
      ac3F cw n q d = some (d', b) → Refines d d' := by
  intro n
  induction n with
  | zero =>
    intro q d d' b h
    exact Option.noConfusion h
  | succ n ih =>
    intro q d d' b h
    match q with
    | [] =>
      rw [ac3F] at h
      obtain rfl : d = d' := congrArg Prod.fst (Option.some.inj h)
      exact refines_refl d
    | (x, y) :: rest =>
      rw [ac3F] at h
      cases hrev : revise cw d x y with
      | mk cur flag =>
        rw [hrev] at h
        have hre : Refines d cur := by
          have hx := revise_refines cw d x y
          rwa [hrev] at hx
        cases flag with
        | true =>
          dsimp only at h
          by_cases hlen : (cur x).length = 0
          · rw [if_pos hlen] at h
            obtain rfl : cur = d' := congrArg Prod.fst (Option.some.inj h)
            exact hre
          · rw [if_neg hlen] at h
            exact refines_trans hre (ih _ cur d' b h)
        | false =>
          dsimp only at h
          have hcd : cur = d := by
            have hx := revise_false_eq cw d x y (by rw [hrev])
            rwa [hrev] at hx
          rw [hcd] at h
          exact ih rest d d' b h

/-- Removals are justified: any arc-consistent subfamily of the input
domains survives AC-3 untouched. -/
theorem ac3F_preserves (cw : Crossword) (e : Domains)
    (hac : ArcConsistent cw e) :
    ∀ (n : Nat) (q : List Arc) (d d' : Domains) (b : Bool),
      QueueOK cw q → (∀ v, ∀ w ∈ e v, w ∈ d v) →
      ac3F cw n q d = some (d', b) →
      ∀ v, ∀ w ∈ e v, w ∈ d' v := by
  intro n
  induction n with
  | zero =>
    intro q d d' b _ _ h
    exact Option.noConfusion h
  | succ n ih =>
    intro q d d' b hq hsub h
    match q with
    | [] =>
      rw [ac3F] at h
      obtain rfl : d = d' := congrArg Prod.fst (Option.some.inj h)
      exact hsub
    | (x, y) :: rest =>
      rw [ac3F] at h
      cases hrev : revise cw d x y with
      | mk cur flag =>
        rw [hrev] at h
        obtain ⟨hx, hy, hxy⟩ := hq (x, y) (List.mem_cons_self _ _)
        have hsub' : ∀ v, ∀ w ∈ e v, w ∈ cur v := by
          intro v w hw
          by_cases hvx : v = x
          · subst hvx
            cases hov : cw.overlaps v y with
            | none =>
              have h0 : revise cw d v y = (d, false) :=
                revise_of_overlaps_none cw d v y hov
              rw [hrev] at h0
              have hfst : cur = d := congrArg Prod.fst h0
              rw [hfst]
              exact hsub v w hw
            | some ab =>
              obtain ⟨u, hu, hne, hagree⟩ :=
                hac v hx y hy hxy ab.1 ab.2 (by rw [hov]) w hw
              have hmem : w ∈ (revise cw d v y).1 v := by
                rw [mem_revise_fst cw d v y ab.1 ab.2 (by rw [hov]) w]
                refine ⟨hsub v w hw, ?_⟩
                rw [hasSupport_iff]
                exact ⟨u, hsub y u hu, hne, hagree⟩
              rw [hrev] at hmem
              exact hmem
          · have hfst : (revise cw d x y).1 v = d v :=
              revise_fst_apply_ne cw d x y v hvx
            rw [hrev] at hfst
            have hcv : cur v = d v := hfst
            rw [hcv]
            exact hsub v w hw
        cases flag with
        | true =>
          dsimp only at h
          by_cases hlen : (cur x).length = 0
          · rw [if_pos hlen] at h
            obtain rfl : cur = d' := congrArg Prod.fst (Option.some.inj h)
            exact hsub'
          · rw [if_neg hlen] at h
            exact ih _ cur d' b (queueOK_append_enq cw x y rest hq) hsub' h
        | false =>
          dsimp only at h
          exact ih rest cur d' b (queueOK_cons cw _ rest hq) hsub' h

/-- On a `True` return, no domain was emptied: any slot non-empty at the
start is still non-empty. -/
theorem ac3F_true_nonempty (cw : Crossword) :
    ∀ (n : Nat) (q : List Arc) (d d' : Domains),
      ac3F cw n q d = some (d', true) →
      ∀ v, d v ≠ [] → d' v ≠ [] := by
  intro n
  induction n with
  | zero =>
    intro q d d' h
    exact Option.noConfusion h
  | succ n ih =>
    intro q d d' h
    match q with
    | [] =>
      rw [ac3F] at h
      obtain rfl : d = d' := congrArg Prod.fst (Option.some.inj h)
      exact fun v hv => hv
    | (x, y) :: rest =>
      rw [ac3F] at h
      cases hrev : revise cw d x y with
      | mk cur flag =>
        rw [hrev] at h
        cases flag with
        | true =>
          dsimp only at h
          by_cases hlen : (cur x).length = 0
          · rw [if_pos hlen] at h
            exact Bool.noConfusion (congrArg Prod.snd (Option.some.inj h))
          · rw [if_neg hlen] at h
            intro v hv
            refine ih _ cur d' h v ?_
            by_cases hvx : v = x
            · subst hvx
              intro hc
              rw [hc] at hlen
              exact hlen rfl
            · have hfst : (revise cw d x y).1 v = d v :=
                revise_fst_apply_ne cw d x y v hvx
              rw [hrev] at hfst
              have hcv : cur v = d v := hfst
              rw [hcv]
              exact hv
        | false =>
          dsimp only at h
          have hcd : cur = d := by
            have hx := revise_false_eq cw d x y (by rw [hrev])
            rwa [hrev] at hx
          rw [hcd] at h
          exact ih rest d d' h

/-- On a `False` return, some slot of the crossword had its (non-empty)
domain emptied by a revision. -/
theorem ac3F_false_emptied (cw : Crossword) :
    ∀ (n : Nat) (q : List Arc) (d d' : Domains),
      QueueOK cw q → ac3F cw n q d = some (d', false) →
      ∃ x ∈ cw.vars, d' x = [] ∧ d x ≠ [] := by
  intro n
  induction n with
  | zero =>
    intro q d d' _ h
    exact Option.noConfusion h
  | succ n ih =>
    intro q d d' hq h
    match q with
    | [] =>
      rw [ac3F] at h
      exact Bool.noConfusion (congrArg Prod.snd (Option.some.inj h))
    | (x, y) :: rest =>
      rw [ac3F] at h
      cases hrev : revise cw d x y with
      | mk cur flag =>
        rw [hrev] at h
        cases flag with
        | true =>
          dsimp only at h
          by_cases hlen : (cur x).length = 0
          · rw [if_pos hlen] at h
            obtain rfl : cur = d' := congrArg Prod.fst (Option.some.inj h)
            refine ⟨x, (hq (x, y) (List.mem_cons_self _ _)).1,
              List.length_eq_zero.mp hlen, ?_⟩
            have hsnd : (revise cw d x y).2 = true := by rw [hrev]
            cases hov : cw.overlaps x y with
            | none =>
              rw [revise_of_overlaps_none cw d x y hov] at hsnd
              exact Bool.noConfusion hsnd
            | some ab =>
              obtain ⟨w, hw, _⟩ :=
                (revise_snd_iff cw d x y ab.1 ab.2 (by rw [hov])).mp hsnd
              exact List.ne_nil_of_mem hw
          · rw [if_neg hlen] at h
            obtain ⟨x', hx', hempty, hne⟩ :=
              ih _ cur d' (queueOK_append_enq cw x y rest hq) h
            refine ⟨x', hx', hempty, ?_⟩
            have hre : Refines d cur := by
              have hr := revise_refines cw d x y
              rwa [hrev] at hr
            exact refines_ne_nil hre x' hne
        | false =>
          dsimp only at h
          have hcd : cur = d := by
            have hx := revise_false_eq cw d x y (by rw [hrev])
            rwa [hrev] at hx
          rw [hcd] at h
          exact ih rest d d' (queueOK_cons cw _ rest hq) h

/-- Anatomy of a successful revision: the overlap exists, the slot's
domain is filtered to its supported words, and some word was
unsupported. -/
theorem revise_true_parts (cw : Crossword) (d : Domains) (x y : Variable)
    (cur : Domains) (hrev : revise cw d x y = (cur, true)) :
    ∃ a b, cw.overlaps x y = some (a, b) ∧
      cur = updateD d x ((d x).filter (fun v => hasSupport (d y) a b v)) ∧
      ∃ w ∈ d x, hasSupport (d y) a b w = false := by
  cases hov : cw.overlaps x y with
  | none =>
    rw [revise_of_overlaps_none cw d x y hov] at hrev
    exact Bool.noConfusion (congrArg Prod.snd hrev)
  | some ab =>
    obtain ⟨a, b⟩ := ab
    rcases revise_of_overlaps_some cw d x y a b hov with ⟨_, he⟩ | ⟨hex, he⟩
    · rw [he] at hrev
      exact Bool.noConfusion (congrArg Prod.snd hrev)
    · rw [he] at hrev
      exact ⟨a, b, rfl, (congrArg Prod.fst hrev).symm, hex⟩

/-- A revision that reports `True` strictly shrinks the slot's domain. -/
theorem revise_true_length_lt (cw : Crossword) (d : Domains) (x y : Variable)
    (cur : Domains) (hrev : revise cw d x y = (cur, true)) :
    (cur x).length < (d x).length := by
  obtain ⟨a, b, _, hcur, w, hw, hns⟩ := revise_true_parts cw d x y cur hrev
  have hupd : updateD d x ((d x).filter (fun v => hasSupport (d y) a b v)) x
      = (d x).filter (fun v => hasSupport (d y) a b v) := by
    unfold updateD
    rw [if_pos rfl]
  rw [hcur, hupd]
  have hlt := filter_length_lt_filter (fun _ => true)
    (fun v => hasSupport (d y) a b v) (d x) (fun _ _ => rfl)
    ⟨w, hw, rfl, hns⟩
  rwa [List.filter_true] at hlt

theorem sum_map_lt {α : Type} (l : List α) (f g : α → Nat)
    (hle : ∀ a ∈ l, f a ≤ g a) (x : α) (hx : x ∈ l) (hlt : f x < g x) :
    (l.map f).sum < (l.map g).sum := by
  induction l with
  | nil => exact absurd hx (List.not_mem_nil x)
  | cons b t ih =>
    rw [List.map_cons, List.map_cons, List.sum_cons, List.sum_cons]
    rcases List.mem_cons.mp hx with rfl | hxt
    · exact Nat.add_lt_add_of_lt_of_le hlt
        (List.sum_le_sum (fun a ha => hle a (List.mem_cons_of_mem _ ha)))
    · exact Nat.add_lt_add_of_le_of_lt (hle b (List.mem_cons_self b t))
        (ih (fun a ha => hle a (List.mem_cons_of_mem _ ha)) hxt)

/-- A successful revision strictly decreases the total domain size. -/
theorem domTotal_revise_lt (cw : Crossword) (d : Domains) (x y : Variable)
    (cur : Domains) (hx : x ∈ cw.vars)
    (hrev : revise cw d x y = (cur, true)) :
    domTotal cw cur < domTotal cw d := by
  unfold domTotal
  apply sum_map_lt cw.vars (fun v => (cur v).length) (fun v => (d v).length)
  · intro v _
    by_cases hvx : v = x
    · subst hvx
      exact Nat.le_of_lt (revise_true_length_lt cw d v y cur hrev)
    · have hfst : (revise cw d x y).1 v = d v := revise_fst_apply_ne cw d x y v hvx
      rw [hrev] at hfst
      have hcv : cur v = d v := hfst
      rw [hcv]
  · exact hx
  · exact revise_true_length_lt cw d x y cur hrev

/-- With `ac3Fuel`-many steps, the AC-3 loop always terminates with a
result (fuel exhaustion is unreachable). -/
theorem ac3F_isSome (cw : Crossword) :
    ∀ (n : Nat) (q : List Arc) (d : Domains),
      QueueOK cw q →
      q.length + domTotal cw d * (cw.vars.length + 1) + 1 ≤ n →
      (ac3F cw n q d).isSome = true := by
  intro n
  induction n with
  | zero =>
    intro q d _ hle
    exact absurd hle (by omega)
  | succ n ih =>
    intro q d hq hle
    match q with
    | [] =>
      rw [ac3F]
      rfl
    | (x, y) :: rest =>
      rw [ac3F]
      cases hrev : revise cw d x y with
      | mk cur flag =>
        cases flag with
        | true =>
          dsimp only
          by_cases hlen : (cur x).length = 0
          · rw [if_pos hlen]
            rfl
          · rw [if_neg hlen]
            apply ih _ cur (queueOK_append_enq cw x y rest hq)
            have hT : domTotal cw cur + 1 ≤ domTotal cw d :=
              domTotal_revise_lt cw d x y cur
                (hq (x, y) (List.mem_cons_self _ _)).1 hrev
            have hE : (((cw.neighbors x).filter (fun z => decide (z ≠ y))).map
                (fun z => (z, x))).length ≤ cw.vars.length := by
              rw [List.length_map]
              calc ((cw.neighbors x).filter (fun z => decide (z ≠ y))).length
                  ≤ (cw.neighbors x).length := List.length_filter_le _ _
                _ ≤ cw.vars.length := by
                    unfold Crossword.neighbors
                    exact List.length_filter_le _ _
            rw [List.length_append]
            have hmul : (domTotal cw cur + 1) * (cw.vars.length + 1) ≤
                domTotal cw d * (cw.vars.length + 1) :=
              Nat.mul_le_mul_right _ hT
            have hexp : (domTotal cw cur + 1) * (cw.vars.length + 1) =
                domTotal cw cur * (cw.vars.length + 1) + (cw.vars.length + 1) := by
              ring
            rw [hexp] at hmul
            rw [List.length_cons] at hle
            omega
        | false =>
          dsimp only
          have hcd : cur = d := by
            have hx := revise_false_eq cw d x y (by rw [hrev])
            rwa [hrev] at hx
          subst hcd
          apply ih rest cur (queueOK_cons cw _ rest hq)
          rw [List.length_cons] at hle
          omega

/-- AC-3 with the default full queue always returns a result. -/
theorem ac3_none_isSome (cw : Crossword) (d : Domains) :
    (ac3 cw d none).isSome = true :=
  ac3F_isSome cw _ (fullQueue cw) d (queueOK_fullQueue cw) (Nat.le_of_eq rfl)

/-- A full queue covers everything. -/
theorem covered_of_full (cw : Crossword) (q : List Arc) (d : Domains)
    (hc : ∀ p ∈ fullQueue cw, p ∈ q) : Covered cw q d := by
  intro x hx y hy hxy a b hov
  left
  apply hc
  rw [mem_fullQueue]
  exact ⟨hx, hy, Ne.symm hxy, by rw [hov]; rfl⟩

/-- Coverage is preserved by one successful revision step: this is where
the classic AC-3 argument enters — after revising `(x, y)`, the skipped
arc `(y, x)` stays stable because a support of `y` removed from `x`'s
domain would itself have been supported, and all other arcs into `x` are
re-enqueued. -/
theorem covered_step (cw : Crossword) (hsym : OverlapsSymm cw)
    (d cur : Domains) (x y : Variable) (rest : List Arc)
    (hxyne : x ≠ y)
    (ra rb : Nat) (hov0 : cw.overlaps x y = some (ra, rb))
    (hcurx : cur x = (d x).filter (fun v => hasSupport (d y) ra rb v))
    (hcurne : ∀ v, v ≠ x → cur v = d v)
    (hcov : Covered cw ((x, y) :: rest) d) :
    Covered cw (rest ++
      ((cw.neighbors x).filter (fun z => decide (z ≠ y))).map
        (fun z => (z, x))) cur := by
  intro p hpv q hqv hpq a b hov
  rcases hcov p hpv q hqv hpq a b hov with hin | hsup
  · rcases List.mem_cons.mp hin with heq | hrest
    · obtain ⟨rfl, rfl⟩ : p = x ∧ q = y :=
        ⟨congrArg Prod.fst heq, congrArg Prod.snd heq⟩
      right
      obtain ⟨rfl, rfl⟩ : ra = a ∧ rb = b := by
        rw [hov0] at hov
        have hp := Option.some.inj hov
        exact ⟨congrArg Prod.fst hp, congrArg Prod.snd hp⟩
      intro v hv
      rw [hcurx] at hv
      rw [hcurne q (Ne.symm hxyne)]
      exact (List.mem_filter.mp hv).2
    · exact Or.inl (List.mem_append_left _ hrest)
  · by_cases hqx : q = x
    · subst hqx
      have hpx : p ≠ q := hpq
      have hovxp : cw.overlaps q p = some (b, a) := hsym p q a b hov
      have hpn : p ∈ cw.neighbors q := by
        rw [mem_neighbors]
        exact ⟨hpv, hpx, by rw [hovxp]; rfl⟩
      by_cases hpy : p = y
      · subst hpy
        right
        intro v hv
        have hvd : v ∈ d p := by
          rw [hcurne p (Ne.symm hxyne)] at hv
          exact hv
        have hs := hsup v hvd
        rw [hasSupport_iff] at hs
        obtain ⟨u, hu, hne, hagree⟩ := hs
        rw [hasSupport_iff]
        obtain ⟨rfl, rfl⟩ : ra = b ∧ rb = a := by
          rw [hov0] at hovxp
          have hp := Option.some.inj hovxp
          exact ⟨congrArg Prod.fst hp, congrArg Prod.snd hp⟩
        refine ⟨u, ?_, hne, hagree⟩
        rw [hcurx, List.mem_filter]
        refine ⟨hu, ?_⟩
        rw [hasSupport_iff]
        exact ⟨v, hvd, Ne.symm hne, hagree.symm⟩
      · left
        apply List.mem_append_right
        rw [List.mem_map]
        exact ⟨p, List.mem_filter.mpr ⟨hpn, by simpa using hpy⟩, rfl⟩
    · right
      intro v hv
      have hvd : v ∈ d p := by
        by_cases hpx : p = x
        · subst hpx
          rw [hcurx] at hv
          exact (List.mem_filter.mp hv).1
        · rw [hcurne p hpx] at hv
          exact hv
      rw [hcurne q hqx]
      exact hsup v hvd

/-- When the queue empties on a `True` run, the final domains are arc
consistent (this is where the classic AC-3 argument that skipping the
arc `(y, x)` after revising `(x, y)` is sound enters, via the symmetry
of the overlap table). -/
theorem ac3F_true_arcConsistent (cw : Crossword) (hsym : OverlapsSymm cw) :
    ∀ (n : Nat) (q : List Arc) (d d' : Domains),
      QueueOK cw q → Covered cw q d →
      ac3F cw n q d = some (d', true) →
      ArcConsistent cw d' := by
  intro n
  induction n with
  | zero =>
    intro q d d' _ _ h
    exact Option.noConfusion h
  | succ n ih =>
    intro q d d' hq hcov h
    match q with
    | [] =>
      rw [ac3F] at h
      obtain rfl : d = d' := congrArg Prod.fst (Option.some.inj h)
      intro x hx y hy hxy a b hov v hv
      rcases hcov x hx y hy hxy a b hov with hin | hsup
      · exact absurd hin (List.not_mem_nil _)
      · rw [← hasSupport_iff]
        exact hsup v hv
    | (x, y) :: rest =>
      rw [ac3F] at h
      cases hrev : revise cw d x y with
      | mk cur flag =>
        rw [hrev] at h
        obtain ⟨hxv, hyv, hxyne⟩ := hq (x, y) (List.mem_cons_self _ _)
        cases flag with
        | true =>
          dsimp only at h
          by_cases hlen : (cur x).length = 0
          · rw [if_pos hlen] at h
            exact Bool.noConfusion (congrArg Prod.snd (Option.some.inj h))
          · rw [if_neg hlen] at h
            obtain ⟨ra, rb, hov0, hcur, _⟩ := revise_true_parts cw d x y cur hrev
            have hcurx : cur x = (d x).filter (fun v => hasSupport (d y) ra rb v) := by
              rw [hcur, updateD, if_pos rfl]
            have hcurne : ∀ v, v ≠ x → cur v = d v := by
              intro v hv
              rw [hcur, updateD, if_neg hv]
            apply ih _ cur d' (queueOK_append_enq cw x y rest hq)
            · exact covered_step cw hsym d cur x y rest hxyne ra rb hov0
                hcurx hcurne hcov
            · exact h
        | false =>
          dsimp only at h
          have hcd : cur = d := by
            have hx := revise_false_eq cw d x y (by rw [hrev])
            rwa [hrev] at hx
          subst hcd
          apply ih rest cur d' (queueOK_cons cw _ rest hq) ?_ h
          intro p hpv q' hqv hpq a b hov
          rcases hcov p hpv q' hqv hpq a b hov with hin | hsup
          · rcases List.mem_cons.mp hin with heq | hrest
            · right
              obtain ⟨rfl, rfl⟩ : p = x ∧ q' = y :=
                ⟨congrArg Prod.fst heq, congrArg Prod.snd heq⟩
              have hsnd : (revise cw cur p q').2 = false := by rw [hrev]
              intro v hv
              rcases revise_of_overlaps_some cw cur p q' a b hov with
                ⟨hall, _⟩ | ⟨_, he⟩
              · exact hall v hv
              · rw [he] at hrev
                exact absurd (congrArg Prod.snd hrev) (by simp)
            · exact Or.inl hrest
          · exact Or.inr hsup

/-- Scenario B's overlap table is symmetric. -/
theorem cwB_overlaps_symm : OverlapsSymm cwB := by
  intro x y a b h
  have h' : overlapsB x y = some (a, b) := h
  unfold overlapsB at h'
  show overlapsB y x = some (b, a)
  unfold overlapsB
  by_cases h1 : x = slotX
  · rw [if_pos h1] at h'
    by_cases h2 : y = slotY
    · rw [if_pos h2] at h'
      have hp := Option.some.inj h'
      obtain ⟨rfl, rfl⟩ : 1 = a ∧ 0 = b :=
        ⟨congrArg Prod.fst hp, congrArg Prod.snd hp⟩
      subst h1; subst h2
      rfl
    · rw [if_neg h2] at h'; exact Option.noConfusion h'
  · rw [if_neg h1] at h'
    by_cases h2 : x = slotY
    · rw [if_pos h2] at h'
      by_cases h3 : y = slotX
      · rw [if_pos h3] at h'
        have hp := Option.some.inj h'
        obtain ⟨rfl, rfl⟩ : 0 = a ∧ 1 = b :=
          ⟨congrArg Prod.fst hp, congrArg Prod.snd hp⟩
        subst h2; subst h3
        rfl
      · rw [if_neg h3] at h'; exact Option.noConfusion h'
    · rw [if_neg h2] at h'; exact Option.noConfusion h'

/-- Counterexample to C7 as stated: on scenario C the slot's domain is
already empty after node-consistency, and `ac3` then returns `True` while
that slot's domain is still empty — "returns True with every slot's
domain non-empty" fails. -/
theorem ac3_true_with_empty_domain :
    ((enforceNodeConsistency cwC (initialDomains cwC)).bind
      (fun d1 => ac3 cwC d1 none)).map (fun p => (p.1 slotX, p.2)) =
      some ([], true) ∧ slotX ∈ cwC.vars := by
  exact ⟨rfl, by decide⟩

/-- Claim C7, amended.  Here `ac3` (default full queue) always terminates with
a result; it returns `False` iff propagation emptied some slot's
initially non-empty domain (returning as soon as a revision empties a
domain); otherwise it runs until the work queue empties and returns
`True` with every neighboring pair arc-consistent and every slot's
domain non-empty unless that domain was already empty when `ac3`
started; and whenever a revision shrinks `x`'s domain without emptying
it, the arcs `(z, x)` for every neighbor `z` of `x` other than `y` are
appended to the queue. -/
theorem ac3_failure_characterisation (cw : Crossword) (hsym : OverlapsSymm cw)
    (d : Domains) :
    (ac3 cw d none).isSome = true ∧
    (∀ d' b, ac3 cw d none = some (d', b) →
      (b = false ↔ ∃ v ∈ cw.vars, d' v = [] ∧ d v ≠ []) ∧
      (b = true → ArcConsistent cw d' ∧ ∀ v, d v ≠ [] → d' v ≠ [])) ∧
    (∀ (n : Nat) (x y : Variable) (rest : List Arc) (dd cur : Domains),
      revise cw dd x y = (cur, true) → ¬(cur x).length = 0 →
      ac3F cw (n + 1) ((x, y) :: rest) dd =
        ac3F cw n
          (rest ++ ((cw.neighbors x).filter (fun z => decide (z ≠ y))).map
            (fun z => (z, x))) cur) := by
  refine ⟨ac3_none_isSome cw d, fun d' b h => ?_,
    fun n x y rest dd cur hrev hlen => ?_⟩
  · have h' : ac3F cw (ac3Fuel cw (fullQueue cw) d) (fullQueue cw) d =
        some (d', b) := h
    constructor
    · constructor
      · intro hb
        rw [hb] at h'
        exact ac3F_false_emptied cw _ _ d d' (queueOK_fullQueue cw) h'
      · rintro ⟨v, _, hempty, hne⟩
        cases hb : b with
        | false => rfl
        | true =>
          rw [hb] at h'
          exact absurd hempty (ac3F_true_nonempty cw _ _ d d' h' v hne)
    · intro hb
      rw [hb] at h'
      exact ⟨ac3F_true_arcConsistent cw hsym _ _ d d' (queueOK_fullQueue cw)
          (covered_of_full cw _ d (fun p hp => hp)) h',
        ac3F_true_nonempty cw _ _ d d' h'⟩
  · rw [ac3F, hrev]
    dsimp only
    rw [if_neg hlen]

/-- Witness for (amended) C7 at scenario B. -/
theorem ac3_failure_characterisation_witness :
    (ac3 cwB (initialDomains cwB) none).isSome = true :=
  (ac3_failure_characterisation cwB cwB_overlaps_symm (initialDomains cwB)).1

/-- Two AC-3 runs from the same domains whose queues both cover every
neighboring arc agree on the returned boolean, and on success on the
final domains (each successful run computes the greatest arc-consistent
subfamily). -/
theorem ac3F_runs_agree (cw : Crossword) (hsym : OverlapsSymm cw) (d : Domains)
    (n1 n2 : Nat) (Q1 Q2 : List Arc)
    (hQ1 : QueueOK cw Q1) (hQ2 : QueueOK cw Q2)
    (hC1 : ∀ p ∈ fullQueue cw, p ∈ Q1) (hC2 : ∀ p ∈ fullQueue cw, p ∈ Q2)
    (d1 d2 : Domains) (b1 b2 : Bool)
    (h1 : ac3F cw n1 Q1 d = some (d1, b1))
    (h2 : ac3F cw n2 Q2 d = some (d2, b2)) :
    b1 = b2 ∧ (b1 = true → ∀ v, d1 v = d2 v) := by
  have key : ∀ (n : Nat) (Q : List Arc) (dr : Domains), QueueOK cw Q →
      (∀ p ∈ fullQueue cw, p ∈ Q) → ac3F cw n Q d = some (dr, true) →
      ArcConsistent cw dr ∧ ∀ v, ∀ w ∈ dr v, w ∈ d v := by
    intro n Q dr hQ hC h
    exact ⟨ac3F_true_arcConsistent cw hsym n Q d dr hQ
        (covered_of_full cw Q d hC) h,
      refines_mem (ac3F_refines cw n Q d dr true h)⟩
  have cross : ∀ (n n' : Nat) (Q Q' : List Arc) (dr dr' : Domains) (b' : Bool),
      QueueOK cw Q → (∀ p ∈ fullQueue cw, p ∈ Q) → QueueOK cw Q' →
      ac3F cw n Q d = some (dr, true) → ac3F cw n' Q' d = some (dr', b') →
      ∀ v, ∀ w ∈ dr v, w ∈ dr' v := by
    intro n n' Q Q' dr dr' b' hQ hC hQ' h h'
    obtain ⟨hac, hsub⟩ := key n Q dr hQ hC h
    exact ac3F_preserves cw dr hac n' Q' d dr' b' hQ' hsub h'
  have absurd_mixed : ∀ (n n' : Nat) (Q Q' : List Arc) (dr dr' : Domains),
      QueueOK cw Q → (∀ p ∈ fullQueue cw, p ∈ Q) → QueueOK cw Q' →
      ac3F cw n Q d = some (dr, true) → ac3F cw n' Q' d = some (dr', false) →
      False := by
    intro n n' Q Q' dr dr' hQ hC hQ' h h'
    obtain ⟨x, _, hempty, hne⟩ := ac3F_false_emptied cw n' Q' d dr' hQ' h'
    have hne1 : dr x ≠ [] := ac3F_true_nonempty cw n Q d dr h x hne
    obtain ⟨w, hw⟩ := List.exists_mem_of_ne_nil _ hne1
    have hmem : w ∈ dr' x := cross n n' Q Q' dr dr' false hQ hC hQ' h h' x w hw
    rw [hempty] at hmem
    exact List.not_mem_nil w hmem
  have hbool : b1 = b2 := by
    cases b1 with
    | true =>
      cases b2 with
      | true => rfl
      | false => exact absurd (absurd_mixed n1 n2 Q1 Q2 d1 d2 hQ1 hC1 hQ2 h1 h2) id
    | false =>
      cases b2 with
      | false => rfl
      | true => exact absurd (absurd_mixed n2 n1 Q2 Q1 d2 d1 hQ2 hC2 hQ1 h2 h1) id
  refine ⟨hbool, fun hb => ?_⟩
  rw [hb] at h1
  rw [hb] at hbool
  rw [← hbool] at h2
  intro v
  have m12 := cross n1 n2 Q1 Q2 d1 d2 true hQ1 hC1 hQ2 h1 h2
  have m21 := cross n2 n1 Q2 Q1 d2 d1 true hQ2 hC2 hQ1 h2 h1
  obtain ⟨p1, hp1⟩ := ac3F_refines cw n1 Q1 d d1 true h1 v
  obtain ⟨p2, hp2⟩ := ac3F_refines cw n2 Q2 d d2 true h2 v
  rw [hp1, hp2]
  apply List.filter_congr
  intro w hw
  have hiff : w ∈ d1 v ↔ w ∈ d2 v := ⟨m12 v w, m21 v w⟩
  rw [hp1, hp2, List.mem_filter, List.mem_filter] at hiff
  by_cases h1w : p1 w = true
  · have h2w : p2 w = true := (hiff.mp ⟨hw, h1w⟩).2
    rw [h1w, h2w]
  · by_cases h2w : p2 w = true
    · exact absurd (hiff.mpr ⟨hw, h2w⟩).2 h1w
    · rw [Bool.not_eq_true] at h1w h2w
      rw [h1w, h2w]

/-- Claim C5, amended.  For any two arc lists that both enumerate every
neighboring ordered pair (in particular any two permutations of the full
initial arc list), the two `ac3` runs return the same boolean, and when
that boolean is `True` (no domain emptied) they leave identical per-slot
domains.  When the boolean is `False` the final domains may differ: the
run aborts at the first emptied domain, so pruning done before the abort
depends on the queue order (see the counterexample). -/
theorem ac3_queue_order_confluent (cw : Crossword) (hsym : OverlapsSymm cw)
    (d : Domains) (q1 q2 : List Arc)
    (hq1 : QueueOK cw q1) (hq2 : QueueOK cw q2)
    (hc1 : ∀ p ∈ fullQueue cw, p ∈ q1) (hc2 : ∀ p ∈ fullQueue cw, p ∈ q2)
    (d1 d2 : Domains) (b1 b2 : Bool)
    (h1 : ac3 cw d (some q1) = some (d1, b1))
    (h2 : ac3 cw d (some q2) = some (d2, b2)) :
    b1 = b2 ∧ (b1 = true → ∀ v, d1 v = d2 v) := by
  set Q1 := if q1.isEmpty then fullQueue cw else q1 with hQ1def
  set Q2 := if q2.isEmpty then fullQueue cw else q2 with hQ2def
  have h1' : ac3F cw (ac3Fuel cw Q1 d) Q1 d = some (d1, b1) := h1
  have h2' : ac3F cw (ac3Fuel cw Q2 d) Q2 d = some (d2, b2) := h2
  have hQ1ok : QueueOK cw Q1 := by
    rw [hQ1def]
    split
    · exact queueOK_fullQueue cw
    · exact hq1
  have hQ2ok : QueueOK cw Q2 := by
    rw [hQ2def]
    split
    · exact queueOK_fullQueue cw
    · exact hq2
  have hC1' : ∀ p ∈ fullQueue cw, p ∈ Q1 := by
    rw [hQ1def]
    split
    · exact fun p hp => hp
    · exact hc1
  have hC2' : ∀ p ∈ fullQueue cw, p ∈ Q2 := by
    rw [hQ2def]
    split
    · exact fun p hp => hp
    · exact hc2
  exact ac3F_runs_agree cw hsym d _ _ Q1 Q2 hQ1ok hQ2ok hC1' hC2'
    d1 d2 b1 b2 h1' h2'

/-- Counterexample to C5 as stated: `permEA` and `permEB` are both
permutations of the full initial arc list of `cwE`, but the final
per-slot domains after `ac3` differ — order A aborts at the emptied
2-letter crossing with `slotP`'s domain untouched (3 words), order B has
already pruned `slotP` to 2 words.  (Both runs do return the same
boolean, as the amended claim states.) -/
theorem ac3_not_queue_order_independent :
    permEA.Perm (fullQueue cwE) ∧ permEB.Perm (fullQueue cwE) ∧
    ((enforceNodeConsistency cwE (initialDomains cwE)).bind
        (fun d1 => ac3 cwE d1 (some permEA))).map (fun p => (p.1 slotP, p.2)) =
      some ([['e', 'x', 'x'], ['g', 'x', 'x'], ['e', 'z', 'z']], false) ∧
    ((enforceNodeConsistency cwE (initialDomains cwE)).bind
        (fun d1 => ac3 cwE d1 (some permEB))).map (fun p => (p.1 slotP, p.2)) =
      some ([['e', 'x', 'x'], ['e', 'z', 'z']], false) ∧
    ([['e', 'x', 'x'], ['g', 'x', 'x'], ['e', 'z', 'z']] : List Word) ≠
      [['e', 'x', 'x'], ['e', 'z', 'z']] := by
  exact ⟨by decide, by decide, rfl, rfl, by decide⟩

/-- Witness for (amended) C5 at scenario B: the two opposite orders of
the full arc list return the same boolean and the same final domain for
the ACROSS slot. -/
theorem ac3_queue_order_confluent_witness :
    (ac3 cwB (initialDomains cwB) (some permB1)).map Prod.snd =
      (ac3 cwB (initialDomains cwB) (some permB2)).map Prod.snd ∧
    (ac3 cwB (initialDomains cwB) (some permB1)).map (fun p => p.1 slotX) =
      (ac3 cwB (initialDomains cwB) (some permB2)).map (fun p => p.1 slotX) := by
  cases hr1 : ac3 cwB (initialDomains cwB) (some permB1) with
  | none =>
    have hs : (ac3 cwB (initialDomains cwB) (some permB1)).isSome = true := rfl
    rw [hr1] at hs
    exact Bool.noConfusion hs
  | some p1 =>
    cases hr2 : ac3 cwB (initialDomains cwB) (some permB2) with
    | none =>
      have hs : (ac3 cwB (initialDomains cwB) (some permB2)).isSome = true := rfl
      rw [hr2] at hs
      exact Bool.noConfusion hs
    | some p2 =>
      obtain ⟨d1, b1⟩ := p1
      obtain ⟨d2, b2⟩ := p2
      have hmain := ac3_queue_order_confluent cwB cwB_overlaps_symm
        (initialDomains cwB) permB1 permB2
        (by unfold QueueOK; decide) (by unfold QueueOK; decide)
        (by decide) (by decide) d1 d2 b1 b2 hr1 hr2
      have hb1 : b1 = true := by
        have hx : (ac3 cwB (initialDomains cwB) (some permB1)).map Prod.snd =
            some true := rfl
        rw [hr1] at hx
        have hx' : some b1 = some true := hx
        exact Option.some.inj hx'
      constructor
      · show some b1 = some b2
        rw [hmain.1]
      · show some (d1 slotX) = some (d2 slotX)
        rw [hmain.2 hb1 slotX]

theorem isAssigned_cons_self (var : Variable) (val : Word) (asg : Assignment) :
    isAssigned ((var, val) :: asg) var = true := by
  unfold isAssigned lookupA
  rw [if_pos rfl]
  rfl

theorem isAssigned_cons_true (k : Variable) (w : Word) (asg : Assignment)
    (v : Variable) (h : isAssigned asg v = true) :
    isAssigned ((k, w) :: asg) v = true := by
  unfold isAssigned lookupA
  split
  · rfl
  · exact h

theorem unassignedCount_lt (cw : Crossword) (asg : Assignment) (var : Variable)
    (hvar : var ∈ cw.vars) (hun : isAssigned asg var = false) (val : Word) :
    unassignedCount cw ((var, val) :: asg) < unassignedCount cw asg := by
  apply filter_length_lt_filter
  · intro v hv
    cases hold : isAssigned asg v with
    | false => rfl
    | true =>
      rw [isAssigned_cons_true var val asg v hold] at hv
      exact Bool.noConfusion hv
  · refine ⟨var, hvar, ?_, ?_⟩
    · rw [hun]; rfl
    · rw [isAssigned_cons_self]; rfl

theorem unassignedCount_le (cw : Crossword) (asg : Assignment) :
    unassignedCount cw asg ≤ cw.vars.length :=
  List.length_filter_le _ _

theorem tryVals_isSome (cw : Crossword)
    (bt : Domains → Assignment → Option (Domains × Option Assignment))
    (var : Variable) (asg : Assignment)
    (hbt : ∀ d0 val, (bt d0 ((var, val) :: asg)).isSome = true) :
    ∀ (vals : List Word) (d0 : Domains),
      (tryVals cw bt var asg vals d0).isSome = true := by
  intro vals
  induction vals with
  | nil => intro d0; rfl
  | cons val rest ih =>
    intro d0
    rw [tryVals]
    by_cases hcons : consistent cw ((var, val) :: asg) = true
    · rw [if_pos hcons]
      cases hbt' : bt d0 ((var, val) :: asg) with
      | none =>
        have hs := hbt d0 val
        rw [hbt'] at hs
        exact Bool.noConfusion hs
      | some p =>
        obtain ⟨d1, r⟩ := p
        dsimp only
        by_cases htr : pyTruthy r = true
        · rw [if_pos htr]; rfl
        · rw [if_neg htr]; exact ih d1
    · rw [if_neg hcons]; exact ih d0

/-- With fuel exceeding the number of unfilled slots, the search always
returns a result (fuel exhaustion is unreachable). -/
theorem backtrackF_isSome (cw : Crossword) :
    ∀ (n : Nat) (d : Domains) (asg : Assignment),
      unassignedCount cw asg < n →
      (backtrackF cw n d asg).isSome = true := by
  intro n
  induction n with
  | zero => intro d asg h; exact absurd h (Nat.not_lt_zero _)
  | succ n ih =>
    intro d asg h
    rw [backtrackF]
    by_cases hcomp : assignmentComplete cw asg = true
    · rw [if_pos hcomp]; rfl
    · rw [if_neg hcomp]
      cases hsel : selectUnassignedVariable cw d asg with
      | none => rfl
      | some var =>
        obtain ⟨hvar, hun⟩ := selectUnassignedVariable_props cw d asg var hsel
        apply tryVals_isSome
        intro d0 val
        apply ih d0
        have hlt := unassignedCount_lt cw asg var hvar hun val
        omega

/-- A restriction of a solution is a consistent assignment. -/
theorem consistent_sol_extension (cw : Crossword) (sol : Variable → Word)
    (hsol : IsSolution cw sol) (asg : Assignment)
    (hasg : ∀ p ∈ asg, p.1 ∈ cw.vars ∧ p.2 = sol p.1) :
    consistent cw asg = true := by
  rw [consistent_iff]
  intro p hp
  obtain ⟨hp1, hp2⟩ := hasg p hp
  constructor
  · rw [hp2, (hsol.1 p.1 hp1).2]
  · intro q hq hne
    obtain ⟨hq1, hq2⟩ := hasg q hq
    obtain ⟨hneq, hov⟩ := hsol.2 p.1 hp1 q.1 hq1 hne
    rw [hp2, hq2]
    exact ⟨hneq, hov⟩

/-- Completeness of the value loop: if the slot's solution value is among
the candidates and the one-level-deeper search succeeds on it, the loop
returns a truthy assignment (possibly through an earlier candidate). -/
theorem tryVals_complete (cw : Crossword)
    (bt : Domains → Assignment → Option (Domains × Option Assignment))
    (var : Variable) (asg : Assignment) (solval : Word) (d : Domains)
    (hframe : ∀ d0 a res, bt d0 a = some res → res.1 = d0)
    (hbt_some : ∀ val, (bt d ((var, val) :: asg)).isSome = true)
    (hbt_ext : ∀ val d1 out, bt d ((var, val) :: asg) = some (d1, some out) →
      out ≠ [])
    (hsol_cons : consistent cw ((var, solval) :: asg) = true)
    (hsol_succ : ∃ d1 out, bt d ((var, solval) :: asg) = some (d1, some out)) :
    ∀ (vals : List Word), solval ∈ vals →
      ∃ d' out, tryVals cw bt var asg vals d = some (d', some out) := by
  intro vals
  induction vals with
  | nil => intro h; exact absurd h (List.not_mem_nil _)
  | cons val rest ih =>
    intro hmem
    rw [tryVals]
    by_cases hcons : consistent cw ((var, val) :: asg) = true
    · rw [if_pos hcons]
      cases hbt' : bt d ((var, val) :: asg) with
      | none =>
        have hs := hbt_some val
        rw [hbt'] at hs
        exact Bool.noConfusion hs
      | some p =>
        obtain ⟨d1, r⟩ := p
        dsimp only
        have hd1 : d1 = d := hframe d _ _ hbt'
        by_cases htr : pyTruthy r = true
        · rw [if_pos htr]
          cases r with
          | none => exact Bool.noConfusion htr
          | some out => exact ⟨d1, out, rfl⟩
        · rw [if_neg htr]
          have hvne : val ≠ solval := by
            rintro rfl
            obtain ⟨d1', out, hout⟩ := hsol_succ
            rw [hbt'] at hout
            obtain rfl : r = some out := congrArg Prod.snd (Option.some.inj hout)
            have hne := hbt_ext val d1 out hbt'
            apply htr
            show (! out.isEmpty) = true
            cases hie : out.isEmpty with
            | false => rfl
            | true =>
              rw [List.isEmpty_iff] at hie
              exact absurd hie hne
          have hmem' : solval ∈ rest := by
            rcases List.mem_cons.mp hmem with heq | h
            · exact absurd heq.symm hvne
            · exact h
          rw [hd1]
          exact ih hmem'
    · rw [if_neg hcons]
      have hvne : val ≠ solval := by
        rintro rfl
        exact hcons hsol_cons
      have hmem' : solval ∈ rest := by
        rcases List.mem_cons.mp hmem with heq | h
        · exact absurd heq.symm hvne
        · exact h
      exact ih hmem'

/-- Completeness of the search: when a solution's values all survive in
the current domains, `backtrack` returns an assignment. -/
theorem backtrackF_complete (cw : Crossword) (sol : Variable → Word)
    (hsol : IsSolution cw sol) (d : Domains)
    (hd : ∀ v ∈ cw.vars, sol v ∈ d v) :
    ∀ (n : Nat) (asg : Assignment),
      unassignedCount cw asg < n →
      (∀ p ∈ asg, p.1 ∈ cw.vars ∧ p.2 = sol p.1) →
      ∃ d' out, backtrackF cw n d asg = some (d', some out) := by
  intro n
  induction n with
  | zero => intro asg h _; exact absurd h (Nat.not_lt_zero _)
  | succ n ih =>
    intro asg hcount hasg
    rw [backtrackF]
    by_cases hcomp : assignmentComplete cw asg = true
    · rw [if_pos hcomp]
      exact ⟨d, asg, rfl⟩
    · rw [if_neg hcomp]
      have hex : ∃ v ∈ cw.vars, isAssigned asg v = false := by
        by_contra hc
        push_neg at hc
        apply hcomp
        rw [assignmentComplete_iff]
        intro v hv
        have hv' := hc v hv
        have hv'' : isAssigned asg v = true := by
          cases hb : isAssigned asg v with
          | true => rfl
          | false => exact absurd hb hv'
        unfold isAssigned at hv''
        rw [Option.isSome_iff_exists] at hv''
        obtain ⟨w, hw⟩ := hv''
        obtain ⟨_, hw2⟩ := hasg (v, w) (lookupA_mem asg v w hw)
        refine ⟨w, hw, ?_⟩
        have hw2' : w = sol v := hw2
        rw [hw2']
        exact (hsol.1 v hv).1
      obtain ⟨v0, hv0, hv0un⟩ := hex
      have hsel_some := selectUnassignedVariable_isSome cw d asg v0 hv0 hv0un
      cases hsel : selectUnassignedVariable cw d asg with
      | none =>
        rw [hsel] at hsel_some
        exact Bool.noConfusion hsel_some
      | some var =>
        obtain ⟨hvar, hun⟩ := selectUnassignedVariable_props cw d asg var hsel
        have hasg' : ∀ val, val = sol var →
            ∀ p ∈ (var, val) :: asg, p.1 ∈ cw.vars ∧ p.2 = sol p.1 := by
          intro val hval p hp
          rcases List.mem_cons.mp hp with rfl | h
          · exact ⟨hvar, hval⟩
          · exact hasg p h
        have hbt_some : ∀ val,
            (backtrackF cw n d ((var, val) :: asg)).isSome = true := by
          intro val
          apply backtrackF_isSome cw n d
          have hlt := unassignedCount_lt cw asg var hvar hun val
          omega
        have hbt_ext : ∀ val d1 out,
            backtrackF cw n d ((var, val) :: asg) = some (d1, some out) →
            out ≠ [] := by
          intro val d1 out hout
          obtain ⟨_, _, ext, hext, _⟩ :=
            backtrackF_spec cw n d ((var, val) :: asg) d1 (some out) out hout rfl
          rw [hext]
          simp
        have hsucc : ∃ d1 out,
            backtrackF cw n d ((var, sol var) :: asg) = some (d1, some out) := by
          have hlt := unassignedCount_lt cw asg var hvar hun (sol var)
          exact ih ((var, sol var) :: asg) (by omega) (hasg' (sol var) rfl)
        exact tryVals_complete cw (backtrackF cw n) var asg (sol var) d
          (fun d0 a res hres => backtrackF_frame cw n d0 a res hres)
          hbt_some hbt_ext
          (consistent_sol_extension cw sol hsol _ (hasg' (sol var) rfl))
          hsucc (orderDomainValues cw d var asg)
          (mem_orderDomainValues cw d var asg (sol var) (hd var hvar))

/-- Claim C2: completeness of the solver: if `solve` (node consistency,
then AC-3, then backtracking from the empty assignment) returns failure
(`None`), then no complete assignment exists that gives every slot a word
of the word list of matching length, satisfies every overlap constraint,
and uses no word twice — in particular every removal performed by
`enforce_node_consistency` and by `revise` preserves all words of every
such assignment (that is the content of the underlying preservation
lemmas). -/
theorem solver_complete (cw : Crossword) (hw : cw.words.Nodup)
    (hv : cw.vars.Nodup) (h : solve cw = none) :
    ¬∃ sol, IsSolution cw sol := by
  rintro ⟨sol, hsol⟩
  obtain ⟨d1, hd1, hprops⟩ := enc_first_pass cw hw hv
  have hsol_d1 : ∀ v ∈ cw.vars, sol v ∈ d1 v := by
    intro v hv'
    rw [(hprops v hv').2]
    exact ⟨(hsol.1 v hv').1, (hsol.1 v hv').2⟩
  have hac3 := ac3_none_isSome cw d1
  cases hac : ac3 cw d1 none with
  | none =>
    rw [hac] at hac3
    exact Bool.noConfusion hac3
  | some p =>
    obtain ⟨d2, b⟩ := p
    have hac' : ac3F cw (ac3Fuel cw (fullQueue cw) d1) (fullQueue cw) d1 =
        some (d2, b) := hac
    have hsol_fam : ArcConsistent cw
        (fun v => if v ∈ cw.vars then [sol v] else []) := by
      intro x hx y hy hxy a b' hov v hv'
      have hv2 : v ∈ (if x ∈ cw.vars then [sol x] else []) := hv'
      rw [if_pos hx, List.mem_singleton] at hv2
      subst hv2
      refine ⟨sol y, ?_, (hsol.2 x hx y hy hxy).1,
        (hsol.2 x hx y hy hxy).2 a b' hov⟩
      show sol y ∈ (if y ∈ cw.vars then [sol y] else [])
      rw [if_pos hy]
      exact List.mem_singleton.mpr rfl
    have hsub : ∀ v, ∀ w ∈ (fun v => if v ∈ cw.vars then [sol v] else []) v,
        w ∈ d1 v := by
      intro v w hw'
      have hw2 : w ∈ (if v ∈ cw.vars then [sol v] else []) := hw'
      by_cases hvv : v ∈ cw.vars
      · rw [if_pos hvv, List.mem_singleton] at hw2
        subst hw2
        exact hsol_d1 v hvv
      · rw [if_neg hvv] at hw2
        exact absurd hw2 (List.not_mem_nil _)
    have hsol_d2 : ∀ v ∈ cw.vars, sol v ∈ d2 v := by
      intro v hv'
      apply ac3F_preserves cw _ hsol_fam _ _ d1 d2 b (queueOK_fullQueue cw)
        hsub hac' v (sol v)
      show sol v ∈ (if v ∈ cw.vars then [sol v] else [])
      rw [if_pos hv']
      exact List.mem_singleton.mpr rfl
    obtain ⟨d', out, hbt⟩ := backtrackF_complete cw sol hsol d2 hsol_d2
      (cw.vars.length + 1) []
      (Nat.lt_succ_of_le (unassignedCount_le cw []))
      (fun p hp => absurd hp (List.not_mem_nil p))
    unfold solve at h
    rw [hd1] at h
    dsimp only at h
    rw [hac] at h
    dsimp only at h
    have hbt' : backtrack cw d2 [] = some (d', some out) := hbt
    rw [hbt'] at h
    exact Option.noConfusion h

/-- Witness for C2 at scenario C: `solve` fails there, so no valid
complete assignment exists; in particular the constant "ab" assignment is
not one. -/
theorem solver_complete_witness :
    ¬ IsSolution cwC (fun _ => ['a', 'b']) := by
  intro hsol
  exact solver_complete cwC (by decide) (by decide) rfl ⟨_, hsol⟩

end Crossgen
